import Mathlib

/-!
Verification development for the `agentexec` repository (package `pkg/combine`).

The development shallowly embeds the ignore-pattern engine
(`parsePatternLine`, `escapeSpecialChars`, `handleDoubleStarPatterns`,
`wildcardToRegex`, `anchorPattern`, `CompileIgnoreLines`,
`MatchesPathWithPattern`), binary detection (`isBinaryFile`, `isPrintable`,
`isCommonBinaryExtension`), the traversal (`TraverseAndCollectFiles`), the
single-file check (`shouldSkipFile`), record formatting
(`ProcessSingleFile`), output assembly (sorting in `CombineFiles`) and the
tree renderer (`GenerateTreeStructure`) from `pkg/combine/combine.go`.

Strings are modelled as `List Char` (`Str`); Go's `regexp` is modelled by a
small regular-expression datatype `RE` with a Brzozowski-derivative matcher
`RE.rmatch`, together with a parser for exactly the regex dialect emitted by
the glob translator.  Since the program runs matching on forward-slash
paths, `filepath.ToSlash` (`normalizePath`) is the identity and is modelled
as such.
-/

set_option maxRecDepth 100000
set_option maxHeartbeats 2000000

namespace AgentExec

/-- Paths and pattern lines are byte strings; we model them as `List Char`
(all characters appearing in the program's own patterns are ASCII, where
Go's byte-wise string order and operations agree with the `Char` ones). -/
abbrev Str := List Char

/-- Convert a Lean string literal to the model representation. -/
def str (s : String) : Str := s.data

/-- Go's byte-wise string comparison `a < b` (used by `sort.Slice` on record
paths and by the lexical ordering of `filepath.WalkDir`). -/
def ltStr : Str → Str → Bool
  | [], [] => false
  | [], _ :: _ => true
  | _ :: _, [] => false
  | a :: as, b :: bs =>
    if a.val < b.val then true
    else if b.val < a.val then false
    else ltStr as bs

theorem ltStr_antisymm : ∀ a b : Str, ltStr a b = false → ltStr b a = false → a = b := by
  intro a
  induction a with
  | nil =>
    intro b h1 _
    cases b with
    | nil => rfl
    | cons x xs => simp [ltStr] at h1
  | cons x xs ih =>
    intro b h1 h2
    cases b with
    | nil => simp [ltStr] at h2
    | cons y ys =>
      simp only [ltStr] at h1 h2
      by_cases hxy : x.val < y.val
      · simp [hxy] at h1
      · by_cases hyx : y.val < x.val
        · simp [hyx, hxy] at h2
        · have hx : x = y := Char.ext (UInt32.le_antisymm (UInt32.not_lt.mp hyx) (UInt32.not_lt.mp hxy))
          simp only [hxy, if_false, hyx] at h1
          simp only [hyx, if_false, hxy] at h2
          rw [hx, ih ys h1 h2]

/-- Insertion of one element into a list sorted by the strict order `lt`
(model of the effect of Go's `sort.Slice` comparison function). -/
def insertBy (lt : α → α → Bool) (x : α) : List α → List α
  | [] => [x]
  | y :: ys => if lt x y then x :: y :: ys else y :: insertBy lt x ys

/-- Sorting used to model `sort.Slice` calls.  Go's sort is unstable; every
theorem that depends on the sort order either fixes inputs on which all
correct sorts agree or quantifies over arbitrary sorted permutations. -/
def sortBy (lt : α → α → Bool) : List α → List α
  | [] => []
  | x :: xs => insertBy lt x (sortBy lt xs)

theorem insertBy_perm (lt : α → α → Bool) (x : α) :
    ∀ l : List α, List.Perm (insertBy lt x l) (x :: l) := by
  intro l
  induction l with
  | nil => simp [insertBy]
  | cons y ys ih =>
    simp only [insertBy]
    by_cases h : lt x y = true
    · simp [h]
    · simp only [h, if_false]
      exact (ih.cons y).trans (List.Perm.swap x y ys)

theorem sortBy_perm (lt : α → α → Bool) : ∀ l : List α, List.Perm (sortBy lt l) l := by
  intro l
  induction l with
  | nil => simp [sortBy]
  | cons x xs ih => exact (insertBy_perm lt x (sortBy lt xs)).trans (ih.cons x)

theorem mem_sortBy {lt : α → α → Bool} {x : α} {l : List α} :
    x ∈ sortBy lt l ↔ x ∈ l := (sortBy_perm lt l).mem_iff

theorem perm_sizeOf_eq [SizeOf α] {l₁ l₂ : List α} (h : List.Perm l₁ l₂) :
    sizeOf l₁ = sizeOf l₂ := by
  induction h with
  | nil => rfl
  | cons x _ ih => simp [ih]
  | swap x y l => simp; omega
  | trans _ _ ih₁ ih₂ => exact ih₁.trans ih₂

theorem sizeOf_sortBy [SizeOf α] (lt : α → α → Bool) (l : List α) :
    sizeOf (sortBy lt l) = sizeOf l := perm_sizeOf_eq (sortBy_perm lt l)

/-!  ## A regular-expression engine

The Go code compiles every ignore pattern to a `regexp.Regexp` and matches a
path with `MatchString`.  Every emitted regex is of the form `^body$` where
`body` uses only literals, escaped literals, `.`, the class `[^/]`,
grouping, alternation and the postfix operators `*`, `+`, `?` — so
`MatchString` is a full match of `body`.  `RE` is a datatype for that
fragment and `RE.rmatch` decides the full-match relation via Brzozowski
derivatives, mirroring Go regex semantics (`.` matches every character
except a newline). -/

inductive RE where
  /-- matches nothing -/
  | emp : RE
  /-- matches only the empty string -/
  | eps : RE
  /-- a single character satisfying the predicate (literal characters,
  `.`, and character classes such as `[^/]`) -/
  | cls (p : Char → Bool) : RE
  /-- alternation `a|b` -/
  | alt (a b : RE) : RE
  /-- concatenation -/
  | cat (a b : RE) : RE
  /-- Kleene star -/
  | star (a : RE) : RE

namespace RE

/-- Does the expression match the empty string? -/
def nullable : RE → Bool
  | emp => false
  | eps => true
  | cls _ => false
  | alt a b => nullable a || nullable b
  | cat a b => nullable a && nullable b
  | star _ => true

/-- Brzozowski derivative with respect to one character. -/
def deriv : RE → Char → RE
  | emp, _ => emp
  | eps, _ => emp
  | cls p, c => if p c then eps else emp
  | alt a b, c => alt (deriv a c) (deriv b c)
  | cat a b, c =>
    if nullable a then alt (cat (deriv a c) b) (deriv b c)
    else cat (deriv a c) b
  | star a, c => cat (deriv a c) (star a)

/-- Full-string matching by repeated derivation. -/
def rmatch : RE → Str → Bool
  | r, [] => nullable r
  | r, c :: s => rmatch (deriv r c) s

theorem emp_rmatch (s : Str) : rmatch emp s = false := by
  induction s with
  | nil => rfl
  | cons c t ih => simpa [rmatch, deriv] using ih

theorem eps_rmatch_iff (s : Str) : rmatch eps s = true ↔ s = [] := by
  cases s with
  | nil => simp [rmatch, nullable]
  | cons c t => simp [rmatch, deriv, emp_rmatch]

theorem cls_rmatch_iff (p : Char → Bool) (s : Str) :
    rmatch (cls p) s = true ↔ ∃ c, s = [c] ∧ p c = true := by
  cases s with
  | nil => simp [rmatch, nullable]
  | cons c t =>
    simp only [rmatch, deriv]
    cases hpc : p c with
    | true =>
      rw [if_pos rfl, eps_rmatch_iff]
      constructor
      · rintro rfl; exact ⟨c, rfl, hpc⟩
      · rintro ⟨d, hd, _⟩
        exact (List.cons_eq_cons.mp hd).2
    | false =>
      rw [if_neg (by simp), emp_rmatch]
      constructor
      · intro hf; exact absurd hf (by simp)
      · rintro ⟨d, hd, hp⟩
        rcases List.cons_eq_cons.mp hd with ⟨rfl, rfl⟩
        rw [hpc] at hp
        exact absurd hp (by simp)

theorem alt_rmatch_iff (a b : RE) (s : Str) :
    rmatch (alt a b) s = true ↔ rmatch a s = true ∨ rmatch b s = true := by
  induction s generalizing a b with
  | nil => simp [rmatch, nullable]
  | cons c t ih => simpa [rmatch, deriv] using ih (deriv a c) (deriv b c)

theorem cat_rmatch_iff (a b : RE) (s : Str) :
    rmatch (cat a b) s = true ↔
      ∃ t u, s = t ++ u ∧ rmatch a t = true ∧ rmatch b u = true := by
  induction s generalizing a b with
  | nil =>
    simp only [rmatch, nullable, Bool.and_eq_true]
    constructor
    · rintro ⟨ha, hb⟩
      exact ⟨[], [], rfl, ha, hb⟩
    · rintro ⟨t, u, htu, ha, hb⟩
      rcases List.append_eq_nil.mp htu.symm with ⟨rfl, rfl⟩
      exact ⟨ha, hb⟩
  | cons c x ih =>
    simp only [rmatch, deriv]
    cases hn : nullable a with
    | true =>
      rw [if_pos rfl, alt_rmatch_iff, ih]
      constructor
      · rintro (⟨t, u, htu, ha, hb⟩ | hb)
        · exact ⟨c :: t, u, by simp [htu], ha, hb⟩
        · exact ⟨[], c :: x, rfl, hn, hb⟩
      · rintro ⟨t, u, htu, ha, hb⟩
        cases t with
        | nil =>
          right
          rw [List.nil_append] at htu
          subst htu
          exact hb
        | cons d t' =>
          left
          rcases List.cons_eq_cons.mp htu with ⟨rfl, rfl⟩
          exact ⟨t', u, rfl, ha, hb⟩
    | false =>
      rw [if_neg (by simp), ih]
      constructor
      · rintro ⟨t, u, htu, ha, hb⟩
        exact ⟨c :: t, u, by simp [htu], ha, hb⟩
      · rintro ⟨t, u, htu, ha, hb⟩
        cases t with
        | nil =>
          rw [List.nil_append] at htu
          subst htu
          exact absurd ha (by simp [rmatch, hn])
        | cons d t' =>
          rcases List.cons_eq_cons.mp htu with ⟨rfl, rfl⟩
          exact ⟨t', u, rfl, ha, hb⟩

theorem star_rmatch_iff (a : RE) :
    ∀ s : Str, rmatch (star a) s = true ↔
      ∃ parts : List Str, s = parts.flatten ∧ ∀ t ∈ parts, t ≠ [] ∧ rmatch a t = true := by
  intro s
  have IH := fun t (_ : t.length < s.length) => star_rmatch_iff a t
  constructor
  · cases s with
    | nil =>
      intro _
      exact ⟨[], rfl, by simp⟩
    | cons c x =>
      rw [rmatch, deriv, cat_rmatch_iff]
      rintro ⟨t, u, htu, ha, hstar⟩
      have hlen : u.length < (c :: x).length := by
        rw [htu]
        simp [List.length_append]
        omega
      rcases (IH u hlen).mp hstar with ⟨parts, hflat, hall⟩
      refine ⟨(c :: t) :: parts, ?_, ?_⟩
      · simp [htu, hflat]
      · intro w hw
        rcases List.mem_cons.mp hw with rfl | hw'
        · exact ⟨by simp, by simpa [rmatch] using ha⟩
        · exact hall w hw'
  · rintro ⟨parts, hflat, hall⟩
    cases s with
    | nil => rfl
    | cons c x =>
      rw [rmatch, deriv, cat_rmatch_iff]
      induction parts generalizing c x with
      | nil => simp at hflat
      | cons w ws ihp =>
        rcases hall w (by simp) with ⟨hw_ne, hw_match⟩
        cases w with
        | nil => exact absurd rfl hw_ne
        | cons d w' =>
          simp only [List.flatten, List.cons_append, List.cons_eq_cons] at hflat
          rcases hflat with ⟨rfl, hrest⟩
          refine ⟨w', ws.flatten, hrest, by simpa [rmatch] using hw_match, ?_⟩
          have hlen2 : ws.flatten.length < (c :: x).length := by
            rw [hrest]
            simp [List.length_append]
            omega
          rw [IH ws.flatten hlen2]
          exact ⟨ws, rfl, fun t ht => hall t (by simp [ht])⟩
  termination_by s => s.length

theorem rmatch_cat_intro {a b : RE} {t u : Str}
    (ha : rmatch a t = true) (hb : rmatch b u = true) :
    rmatch (cat a b) (t ++ u) = true :=
  (cat_rmatch_iff a b (t ++ u)).mpr ⟨t, u, rfl, ha, hb⟩

theorem rmatch_alt_left {a b : RE} {s : Str} (h : rmatch a s = true) :
    rmatch (alt a b) s = true :=
  (alt_rmatch_iff a b s).mpr (Or.inl h)

theorem rmatch_alt_right {a b : RE} {s : Str} (h : rmatch b s = true) :
    rmatch (alt a b) s = true :=
  (alt_rmatch_iff a b s).mpr (Or.inr h)

theorem rmatch_eps_nil : rmatch eps [] = true := rfl

theorem rmatch_cls_single {p : Char → Bool} {c : Char} (h : p c = true) :
    rmatch (cls p) [c] = true :=
  (cls_rmatch_iff p [c]).mpr ⟨c, rfl, h⟩

/-- A starred character class matches any string all of whose characters
satisfy the predicate (used for `.*` on newline-free strings). -/
theorem rmatch_star_cls {p : Char → Bool} {s : Str}
    (h : ∀ c ∈ s, p c = true) : rmatch (star (cls p)) s = true := by
  refine (star_rmatch_iff (cls p) s).mpr ⟨s.map (fun c => [c]), ?_, ?_⟩
  · induction s with
    | nil => rfl
    | cons c t ih => simpa using ih (fun d hd => h d (by simp [hd]))
  · intro t ht
    rcases List.mem_map.mp ht with ⟨c, hc, rfl⟩
    exact ⟨by simp, rmatch_cls_single (h c hc)⟩

/-- Destructor for a concatenation headed by a single-character class. -/
theorem rmatch_cat_cls_elim {p : Char → Bool} {r : RE} {s : Str}
    (h : rmatch (cat (cls p) r) s = true) :
    ∃ c s', s = c :: s' ∧ p c = true ∧ rmatch r s' = true := by
  rcases (cat_rmatch_iff (cls p) r s).mp h with ⟨t, u, htu, ht, hu⟩
  rcases (cls_rmatch_iff p t).mp ht with ⟨c, rfl, hc⟩
  exact ⟨c, u, by simp [htu], hc, hu⟩

end RE



/-!  ## Parsing the emitted regex dialect

`parsePatternLine` in `combine.go` hands the translated glob to
`regexp.Compile`.  The translator only ever emits regexes built from
literals, backslash escapes, `(`/`)` groups, `|`, the class `[^/]`, `.`,
and the postfix operators `*`, `+`, `?`, always wrapped as `^body$`.
`compileRegex` parses exactly that dialect (returning `none` where Go's
compiler reports an error, e.g. a trailing backslash or an unbalanced
parenthesis) and yields the `RE` whose full-match semantics equals
`MatchString` of the anchored Go regex. -/

/-- Go's `\w` class. -/
def isWordChar (c : Char) : Bool := c.isAlpha || c.isDigit || c == '_'

/-- Go's `\s` class (`[\t\n\f\r ]`). -/
def isSpaceClassChar (c : Char) : Bool :=
  c == '\t' || c == '\n' || c == '\x0c' || c == '\r' || c == ' '

/-- Meaning of a backslash escape in atom position; `none` for escapes the
model does not support (assertions, backreferences, unknown letter
escapes — Go likewise rejects most of these). -/
def escAtom (c : Char) : Option RE :=
  if c == 'd' then some (RE.cls (fun x => x.isDigit))
  else if c == 'D' then some (RE.cls (fun x => !x.isDigit))
  else if c == 'w' then some (RE.cls isWordChar)
  else if c == 'W' then some (RE.cls (fun x => !isWordChar x))
  else if c == 's' then some (RE.cls isSpaceClassChar)
  else if c == 'S' then some (RE.cls (fun x => !isSpaceClassChar x))
  else if c == 'n' then some (RE.cls (fun x => x == '\n'))
  else if c == 't' then some (RE.cls (fun x => x == '\t'))
  else if c == 'r' then some (RE.cls (fun x => x == '\r'))
  else if c == 'f' then some (RE.cls (fun x => x == '\x0c'))
  else if c == 'v' then some (RE.cls (fun x => x == '\x0b'))
  else if c.isAlpha || c.isDigit then none
  else some (RE.cls (fun x => x == c))

/-- Parse the inside of a character class after `[` (and after a leading
`^` has been consumed), accumulating member characters until `]`. -/
def parseCls (neg : Bool) (acc : List Char) : Str → Option (RE × Str)
  | [] => none
  | ']' :: rest =>
    if acc.isEmpty then none
    else some (RE.cls (fun c => acc.contains c != neg), rest)
  | '\\' :: c :: rest => parseCls neg (c :: acc) rest
  | '\\' :: [] => none
  | c :: rest => parseCls neg (c :: acc) rest

mutual

/-- Alternation level of the recursive-descent parser (fuel-indexed). -/
def parseAlt : Nat → Str → Option (RE × Str)
  | 0, _ => none
  | Nat.succ fuel, s =>
    match parseSeq fuel s with
    | none => none
    | some (r, rest) =>
      match rest with
      | '|' :: rest' =>
        match parseAlt fuel rest' with
        | none => none
        | some (r₂, rest₂) => some (RE.alt r r₂, rest₂)
      | _ => some (r, rest)

/-- Concatenation level. -/
def parseSeq : Nat → Str → Option (RE × Str)
  | 0, _ => none
  | Nat.succ fuel, s =>
    match s with
    | [] => some (RE.eps, [])
    | c :: _ =>
      if c == ')' || c == '|' then some (RE.eps, s)
      else
        match parseFactor fuel s with
        | none => none
        | some (r, rest) =>
          match parseSeq fuel rest with
          | none => none
          | some (r₂, rest₂) => some (RE.cat r r₂, rest₂)

/-- One atom with an optional postfix `*`, `+` or `?`. -/
def parseFactor : Nat → Str → Option (RE × Str)
  | 0, _ => none
  | Nat.succ fuel, s =>
    match parseAtom fuel s with
    | none => none
    | some (r, rest) =>
      match rest with
      | '*' :: t => some (RE.star r, t)
      | '+' :: t => some (RE.cat r (RE.star r), t)
      | '?' :: t => some (RE.alt RE.eps r, t)
      | _ => some (r, rest)

/-- A single atom: group, class, escape, `.`, or a literal character. -/
def parseAtom : Nat → Str → Option (RE × Str)
  | 0, _ => none
  | Nat.succ fuel, s =>
    match s with
    | [] => none
    | '(' :: rest =>
      match parseAlt fuel rest with
      | some (r, ')' :: rest') => some (r, rest')
      | _ => none
    | '[' :: '^' :: rest => parseCls true [] rest
    | '[' :: rest => parseCls false [] rest
    | '\\' :: c :: rest =>
      match escAtom c with
      | none => none
      | some r => some (r, rest)
    | '\\' :: [] => none
    | '.' :: rest => some (RE.cls (fun c => c != '\n'), rest)
    | c :: rest =>
      if c == ')' || c == '|' || c == '*' || c == '+' || c == '?' || c == '^' || c == '$' then none
      else some (RE.cls (fun x => x == c), rest)

end

/-- Model of `regexp.Compile` on the translator's output, which is always
of the form `^body$` with no inner anchors: strip the anchors and require
the parser to consume `body` entirely.  `RE.rmatch` of the result equals
`MatchString` of the Go regex (a fully anchored regex matches a string
exactly when the whole string matches its body). -/
def compileRegex : Str → Option RE
  | '^' :: body =>
    if body.getLast? = some '$' then
      match parseAlt (4 * body.length + 16) body.dropLast with
      | some (r, []) => some r
      | _ => none
    else none
  | _ => none

/-!  ## The glob translator (`combine.go` steps 1–10) -/

/-- `strings.TrimRight(line, "\r\n")`. -/
def trimRightCRLF (s : Str) : Str :=
  (s.reverse.dropWhile (fun c => c == '\r' || c == '\n')).reverse

/-- `strings.TrimSpace` (the patterns concerned are ASCII, where Go's
Unicode space set restricts to these characters). -/
def isGoSpace (c : Char) : Bool :=
  c == ' ' || c == '\t' || c == '\n' || c == '\x0b' || c == '\x0c' || c == '\r'

/-- `strings.TrimSpace(s)`. -/
def trimSpace (s : Str) : Str :=
  ((s.dropWhile isGoSpace).reverse.dropWhile isGoSpace).reverse

/-- `strings.ReplaceAll(s, string(needle), repl)` for a single-character
needle (Go scans left to right and does not rescan the replacement). -/
def replaceAllChar (needle : Char) (repl : Str) (s : Str) : Str :=
  s.flatMap (fun c => if c = needle then repl else [c])

/-- `escapeSpecialChars` from `combine.go`: escape every regex special
character except `*`, `?` and `/`, iterating the special characters in the
source's order. -/
def escapeSpecialChars (pattern : Str) : Str :=
  (str ".+()|^$[]\x7b\x7d").foldl (fun p c => replaceAllChar c ['\\', c] p) pattern

/-- Leftmost, non-overlapping replacement of a literal substring, as
`regexp.ReplaceAllString` behaves on the literal pattern `/\*\*/`. -/
def replaceSubAux (needle repl : Str) : Nat → Str → Str
  | 0, s => s
  | Nat.succ fuel, s =>
    match s with
    | [] => []
    | c :: rest =>
      if needle ≠ [] ∧ needle.isPrefixOf (c :: rest) then
        repl ++ replaceSubAux needle repl fuel ((c :: rest).drop needle.length)
      else c :: replaceSubAux needle repl fuel rest

/-- All-occurrence substring replacement. -/
def replaceAllSub (needle repl s : Str) : Str := replaceSubAux needle repl s.length s

/-- `handleDoubleStarPatterns` from `combine.go`:
`/\*\*/` → `(/|/.+/)`, then a trailing `/**` → `(/.*)?`, then a leading
`**/` → `(.*/)?`. -/
def handleDoubleStarPatterns (pattern : Str) : Str :=
  let p₁ := replaceAllSub (str "/**/") (str "(/|/.+/)") pattern
  let p₂ := if (str "/**").isSuffixOf p₁ then p₁.take (p₁.length - 3) ++ str "(/.*)?" else p₁
  if (str "**/").isPrefixOf p₂ then str "(.*/)?" ++ p₂.drop 3 else p₂

/-- `wildcardToRegex` from `combine.go`: every `*` → `[^/]*`, then every
`?` → `.` — including characters introduced by the double-star rewrite. -/
def wildcardToRegex (pattern : Str) : Str :=
  (replaceAllChar '*' (str "[^/]*") pattern).map (fun c => if c = '?' then '.' else c)

/-- `anchorPattern` from `combine.go`.  Note the two quirks of the source:
the suffix is chosen by looking at the original (glob) pattern, while the
leading-slash test is made on the regex text built so far, not on the
original pattern. -/
def anchorPattern (pattern originalPattern : Str) : Str :=
  let p := pattern ++
    (if originalPattern.getLast? = some '/' then str "(|.*)$" else str "(|/.*)$")
  if p.head? = some '/' then '^' :: p else str "^(|.*/)" ++ p

/-- `wildcardDirPattern.MatchString`, i.e. the regex `[^/]\*/`: some
character other than `/` followed by `*/`. -/
def wildcardDirMatch : Str → Bool
  | [] => false
  | [_] => false
  | [_, _] => false
  | a :: b :: c :: rest =>
    (a != '/' && b == '*' && c == '/') || wildcardDirMatch (b :: c :: rest)

/-- Steps 1–6 of `parsePatternLine`: drop empty lines and comments, trim,
record negation, un-escape a leading `\#`/`\!`, and prepend `/` when the
pattern has a wildcard in a directory position.  Returns the preprocessed
pattern text together with the negation flag. -/
def rulePreprocess (line : Str) : Option (Str × Bool) :=
  let trimmed₀ := trimRightCRLF line
  if trimmed₀.isEmpty then none
  else if trimmed₀.head? = some '#' then none
  else
    let t₁ := trimSpace trimmed₀
    let negate := t₁.head? = some '!'
    let t₂ := if t₁.head? = some '!' then t₁.tail else t₁
    let t₃ := if (str "\\#").isPrefixOf t₂ ∨ (str "\\!").isPrefixOf t₂ then t₂.tail else t₂
    let t₄ := if wildcardDirMatch t₃ ∧ ¬(t₃.head? = some '/') then '/' :: t₃ else t₃
    some (t₄, negate)

/-- Steps 7–10 of `parsePatternLine`: escape, rewrite double stars, rewrite
wildcards, anchor. -/
def translateGlob (t : Str) : Str :=
  anchorPattern (wildcardToRegex (handleDoubleStarPatterns (escapeSpecialChars t))) t

/-- `parsePatternLine` from `combine.go`: `none` both for non-rule lines
(empty, comment) and for lines whose translated regex fails to compile —
in the latter case the source logs a diagnostic and likewise returns no
rule. -/
def parsePatternLine (line : Str) : Option (RE × Bool) :=
  match rulePreprocess line with
  | none => none
  | some (t, negate) =>
    match compileRegex (translateGlob t) with
    | none => none
    | some r => some (r, negate)

/-- One compiled ignore rule (`IgnorePattern` in the source; the `LineNo`
and `Line` fields are used only for logging and are omitted). -/
structure IgnorePattern where
  pattern : RE
  negate : Bool

/-- `CompileIgnoreLines`: compile each line, silently skipping lines that
produce no rule. -/
def compileIgnoreLines (lines : List Str) : List IgnorePattern :=
  lines.filterMap (fun line => (parsePatternLine line).map (fun pr => ⟨pr.1, pr.2⟩))

/-- `MatchesPathWithPattern`: scan all rules in order, overwriting the
verdict on every match; the last matching rule wins, a negated rule sets
the verdict back to `false`.  `normalizePath` (`filepath.ToSlash`) is the
identity on slash-separated paths. -/
def matchesPathWithPattern (patterns : List IgnorePattern) (path : Str) :
    Bool × Option IgnorePattern :=
  patterns.foldl
    (fun acc p =>
      if RE.rmatch p.pattern path then
        (if p.negate then (false, some p) else (true, some p))
      else acc)
    (false, none)

/-- `MatchesPath`. -/
def matchesPath (patterns : List IgnorePattern) (path : Str) : Bool :=
  (matchesPathWithPattern patterns path).1



/-!  ## Binary detection (`combine.go`) -/

/-- `isPrintable`: printable ASCII, newline, carriage return or tab. -/
def isPrintable (b : Nat) : Bool :=
  (32 ≤ b && b ≤ 126) || b == 10 || b == 13 || b == 9

/-- The classification made by `isBinaryFile` on a file whose bytes are
`content` (the I/O wrapper reads the first 512 bytes; read errors are
propagated separately and are not part of the classification).  The Go
test `float64(nonPrintable)/float64(len(buffer)) > 0.3` is modelled by the
exact integer inequality `3*len < 10*nonPrintable`: for
`0 ≤ nonPrintable ≤ len ≤ 512` both operands are exact in `float64`, the
quotient is rounded to within `2⁻⁵³` relative error, the constant `0.3`
rounds to a double strictly below `3/10`, and the smallest possible gap
`|nonPrintable/len − 3/10| ≥ 1/5120` dwarfs both rounding errors, so the
float comparison and the rational comparison agree on every input. -/
def isBinaryFile (content : List Nat) : Bool :=
  if (content.take 512).contains 0 then true
  else if (content.take 512).length = 0 then false
  else
    decide (3 * (content.take 512).length <
      10 * (content.take 512).foldl (fun n b => if isPrintable b then n else n + 1) 0)

/-- The keys of the `binaryExtensions` map, exactly as written in the
source (note `.DS_Store` keeps its capitals there). -/
def binaryExtensions : List Str :=
  [str ".exe", str ".dll", str ".so", str ".dylib", str ".bin", str ".obj",
   str ".o", str ".a", str ".lib", str ".pyc", str ".pyo", str ".class",
   str ".jar", str ".war", str ".ear", str ".png", str ".jpg", str ".jpeg",
   str ".gif", str ".bmp", str ".ico", str ".pdf", str ".zip", str ".tar",
   str ".gz", str ".7z", str ".rar", str ".db", str ".sqlite", str ".mp3",
   str ".mp4", str ".avi", str ".mov", str ".wmv", str ".flac", str ".m4a",
   str ".mkv", str ".wav", str ".iso", str ".dmg", str ".pkg", str ".deb",
   str ".rpm", str ".msi", str ".apk", str ".ipa", str ".svg", str ".webp",
   str ".heic", str ".psd", str ".ttf", str ".otf", str ".woff",
   str ".woff2", str ".eot", str ".dbf", str ".mdb", str ".accdb",
   str ".bak", str ".tmp", str ".log", str ".cache", str ".swp",
   str ".swo", str ".DS_Store"]

/-- `strings.ToLower` (adequate for ASCII, which is all the table holds). -/
def toLowerStr (s : Str) : Str := s.map Char.toLower

/-- `filepath.Ext`: the suffix starting at the final dot of the final path
element, empty if there is none. -/
def extOf (path : Str) : Str :=
  let rev := path.reverse
  let pre := rev.takeWhile (fun c => c != '.' && c != '/')
  match rev.drop pre.length with
  | '.' :: _ => '.' :: pre.reverse
  | _ => []

/-- `isCommonBinaryExtension`. -/
def isCommonBinaryExtension (path : Str) : Bool :=
  binaryExtensions.contains (toLowerStr (extOf path))

/-!  ## `path/filepath` helpers (Unix rules, as the matcher itself assumes
slash-separated paths).  Inputs handed to these by the model are absolute
or explicitly-relative paths exactly as in the modelled call sites. -/

/-- Segment folding of `filepath.Clean`: drop `.` and empty segments,
resolve `..` against a previous segment where possible. -/
def cleanSegsFold (abs : Bool) (segs : List Str) : List Str :=
  segs.foldl
    (fun acc seg =>
      if seg = [] ∨ seg = str "." then acc
      else if seg = str ".." then
        match acc.getLast? with
        | some last => if last = str ".." then acc ++ [seg] else acc.dropLast
        | none => if abs then acc else [seg]
      else acc ++ [seg])
    []

/-- `filepath.Clean`. -/
def cleanPath (s : Str) : Str :=
  if s = [] then str "."
  else
    let abs := s.head? = some '/'
    let segs := cleanSegsFold abs (s.splitOn '/')
    if abs then '/' :: List.intercalate (str "/") segs
    else if segs = [] then str "." else List.intercalate (str "/") segs

/-- `filepath.Dir`: everything up to the final separator, cleaned. -/
def dirOf (path : Str) : Str :=
  let tailLen := (path.reverse.takeWhile (fun c => c != '/')).length
  cleanPath (path.take (path.length - tailLen))

/-- Length of the common prefix of two lists. -/
def commonPrefixLen [DecidableEq α] : List α → List α → Nat
  | a :: as, b :: bs => if a = b then commonPrefixLen as bs + 1 else 0
  | _, _ => 0

/-- The segment list `filepath.Rel` walks over (a leading empty segment
stands for the root slash; the empty-string base produced from `.` has no
segments). -/
def relSegs (s : Str) : List Str :=
  if s = [] then []
  else if s = str "/" then [[]]
  else s.splitOn '/'

/-- `filepath.Rel` on Unix paths: `none` models the error return. -/
def goRel (basepath targpath : Str) : Option Str :=
  let base := cleanPath basepath
  let targ := cleanPath targpath
  if base = targ then some (str ".")
  else
    let base' := if base = str "." then [] else base
    if (base'.head? = some '/') ≠ (targ.head? = some '/') then none
    else
      let sb := relSegs base'
      let st := relSegs targ
      let k := commonPrefixLen sb st
      let rb := sb.drop k
      let rt := st.drop k
      if rb.head? = some (str "..") then none
      else if rb.isEmpty then some (List.intercalate (str "/") rt)
      else some (List.intercalate (str "/") (List.replicate rb.length (str "..") ++ rt))

/-!  ## Single-file check, record formatting -/

/-- `shouldSkipFile` from `combine.go`, on a file whose bytes are
`content` (`info.Size()` is the byte length).  The relative path handed to
the rule matcher is the path made relative to its own parent directory —
i.e. the base name; the error of `filepath.Rel` is discarded by the
source, leaving the zero-value string. -/
def shouldSkipFile (path : Str) (content : List Nat) (gi : List IgnorePattern)
    (maxFileSizeKB : Int) : Bool :=
  let relPath := (goRel (dirOf path) path).getD []
  if matchesPath gi relPath then true
  else if isCommonBinaryExtension path then true
  else if (content.length : Int) > maxFileSizeKB * 1024 then true
  else isBinaryFile content

/-- A `{relative path, formatted content}` record (`FileContent`). -/
structure FileContent where
  Path : Str
  Content : Str
deriving DecidableEq

/-- Go's `string(bytes)` for the ASCII contents exercised here. -/
def decodeBytes (bs : List Nat) : Str := bs.map (fun b => Char.ofNat b)

/-- The per-file header written by `ProcessSingleFile`: a separator line of
78 dashes and a `# Source: <relative path> #` marker. -/
def sourceHeader (relativePath : Str) : Str :=
  str "\n\n# " ++ List.replicate 78 '-' ++ str "\n# Source: " ++ relativePath ++ str " #\n\n"

/-- `ProcessSingleFile` on a successfully-read file: compute the path
relative to `parentDir` (falling back to the absolute path if `parentDir`
is empty or `filepath.Rel` fails) and prepend the header.  `readFile`
models `os.ReadFile`. -/
def processSingleFile (readFile : Str → List Nat) (parentDir : Str) (filePath : Str) :
    FileContent :=
  let relativePath :=
    if parentDir = [] then filePath
    else
      match goRel parentDir filePath with
      | none => filePath
      | some r => r
  { Path := relativePath
    Content := sourceHeader relativePath ++ decodeBytes (readFile filePath) }

/-!  ## The filesystem model and the traversal -/

/-- A directory tree: regular files carry their bytes. -/
inductive Entry where
  | file (name : Str) (content : List Nat) : Entry
  | dir (name : Str) (entries : List Entry) : Entry

/-- The entry's name. -/
def Entry.name : Entry → Str
  | .file n _ => n
  | .dir n _ => n

/-- `DirEntry.IsDir`. -/
def Entry.isDirE : Entry → Bool
  | .file _ _ => false
  | .dir _ _ => true

/-- `filepath.WalkDir` visits the children of a directory in lexical
(byte-wise) order of their names. -/
def walkLt (a b : Entry) : Bool := ltStr a.name b.name

/-- The comparator of `GenerateTreeStructure`'s `sort.Slice`: directories
first, then case-insensitively by name. -/
def treeLt (a b : Entry) : Bool :=
  if a.isDirE != b.isDirE then a.isDirE
  else ltStr (toLowerStr a.name) (toLowerStr b.name)

/-- Extending a walk-relative path by one name; at the root the relative
path of a child is its bare name (`filepath.Rel(root, root/name) = name`).
-/
def joinRel (rel name : Str) : Str := if rel = str "." then name else rel ++ '/' :: name

/-- `CollectedFiles`: regular files to combine and detected binary files
(paths here are root-relative; the collection phase re-prefixes the root). -/
structure CollectedFiles where
  Regular : List Str
  Binary : List Str
deriving DecidableEq

/-- Empty collection. -/
def cfEmpty : CollectedFiles := ⟨[], []⟩

/-- Concatenation of collections. -/
def cfAppend (a b : CollectedFiles) : CollectedFiles :=
  ⟨a.Regular ++ b.Regular, a.Binary ++ b.Binary⟩

/-- The walk body of `TraverseAndCollectFiles` over the children of one
directory whose relative path is `rel`, in `WalkDir`'s lexical order: an
ignored directory prunes its whole subtree; a surviving file is routed to
the binary list (binary sniff first) or dropped by the size ceiling or
added to the regular list (paths here are root-relative; callers re-join
the root).  `fuel` only bounds the directory depth: any fuel at least the
height of the tree computes the full walk, so theorems quantify over all
fuels and concrete runs pass a sufficient literal. -/
def walkChildren : Nat → List IgnorePattern → Int → Str → List Entry → CollectedFiles
  | 0, _, _, _, _ => cfEmpty
  | Nat.succ fuel, gi, maxKB, rel, es =>
    ((sortBy walkLt es).map
      (fun e =>
        let rel' := joinRel rel e.name
        match e with
        | .file _ content =>
          if matchesPath gi rel' then cfEmpty
          else if isBinaryFile content then ⟨[], [rel']⟩
          else if (content.length : Int) > maxKB * 1024 then cfEmpty
          else ⟨[rel'], []⟩
        | .dir _ es' =>
          if matchesPath gi rel' then cfEmpty
          else walkChildren fuel gi maxKB rel' es')).foldl cfAppend cfEmpty

/-- `TraverseAndCollectFiles` on a directory root with children
`rootEntries`: `WalkDir` first visits the root itself, whose relative path
is `.` (an ignore match there prunes everything), then the children. -/
def traverseAndCollectFiles (gi : List IgnorePattern) (maxKB : Int) (fuel : Nat)
    (rootEntries : List Entry) : CollectedFiles :=
  if matchesPath gi (str ".") then cfEmpty
  else walkChildren fuel gi maxKB (str ".") rootEntries

/-!  ## The tree renderer (`GenerateTreeStructure`) -/

/-- `strings.Join(lines, "\n")`. -/
def joinNL (lines : List Str) : Str := List.intercalate (str "\n") lines

/-- `GenerateTreeStructure(directory, parentDir, gi, prefix)` for the
directory whose children are `es` and whose path relative to the tree root
is `rel`: sort the entries (directories first, then case-insensitively by
name), pick connectors by position (before the ignore filter, as in the
source), skip entries matched by the rules — for a directory the whole
subtree — and join the surviving lines with newlines. -/
def generateTreeStructure : Nat → List IgnorePattern → Str → Str → List Entry → Str
  | 0, _, _, _, _ => []
  | Nat.succ fuel, gi, rel, pfx, es =>
    let sorted := sortBy treeLt es
    let n := sorted.length
    joinNL
      (((List.range n).zip sorted).flatMap
        (fun ie =>
          let connector := if ie.1 = n - 1 then str "└── " else str "├── "
          let extension := if ie.1 = n - 1 then str "    " else str "│   "
          let rel' := joinRel rel ie.2.name
          match ie.2 with
          | .file nm _ => if matchesPath gi rel' then [] else [pfx ++ connector ++ nm]
          | .dir nm es' =>
            if matchesPath gi rel' then []
            else
              let sub := generateTreeStructure fuel gi rel' (pfx ++ extension) es'
              if sub.isEmpty then [pfx ++ connector ++ nm ++ [ '/' ]]
              else [pfx ++ connector ++ nm ++ [ '/' ], sub]))

/-- The relative paths of the entries `GenerateTreeStructure` renders — the
renderer's inclusion decisions, stripped of the purely visual connectors
and prefixes (same recursion and same ignore tests as
`generateTreeStructure`). -/
def treePaths : Nat → List IgnorePattern → Str → List Entry → List Str
  | 0, _, _, _ => []
  | Nat.succ fuel, gi, rel, es =>
    (sortBy treeLt es).flatMap
      (fun e =>
        let rel' := joinRel rel e.name
        match e with
        | .file _ _ => if matchesPath gi rel' then [] else [rel']
        | .dir _ es' =>
          if matchesPath gi rel' then [] else rel' :: treePaths fuel gi rel' es')

/-!  ## The collection phase and output assembly of `CombineFiles` -/

/-- The per-path collection loop of `CombineFiles`: `stat` models
`os.Stat` (`none`: the path is skipped with a warning), a directory is
traversed (collected root-relative paths are re-joined onto the root, as
`WalkDir` reports root-joined paths), a single file passes through
`shouldSkipFile`, and a skipped single file is reported as binary when
`isBinaryFile` says so. -/
def collectPhase (stat : Str → Option Entry) (gi : List IgnorePattern)
    (maxKB : Int) (fuel : Nat) (paths : List Str) : CollectedFiles :=
  paths.foldl
    (fun acc path =>
      let absPath := cleanPath path
      match stat absPath with
      | none => acc
      | some (.dir _ es) =>
        let c := traverseAndCollectFiles gi maxKB fuel es
        { Regular := acc.Regular ++ c.Regular.map (fun r => absPath ++ '/' :: r)
          Binary := acc.Binary ++ c.Binary.map (fun r => absPath ++ '/' :: r) }
      | some (.file _ content) =>
        if ¬ shouldSkipFile absPath content gi maxKB then
          { acc with Regular := acc.Regular ++ [absPath] }
        else if isBinaryFile content then
          { acc with Binary := acc.Binary ++ [absPath] }
        else acc)
    ⟨[], []⟩

/-- One record per collected file, each produced by a worker running
`ProcessSingleFile(file, parentDir)`; the order of this list is the
arbitrary order in which workers happen to deliver results. -/
def combinedRecords (readFile : Str → List Nat) (parentDir : Str)
    (files : List Str) : List FileContent :=
  files.map (processSingleFile readFile parentDir)

/-- The comparison of `CombineFiles`'s `sort.Slice`:
`contents[i].Path < contents[j].Path`. -/
def recordLt (a b : FileContent) : Bool := ltStr a.Path b.Path

/-- Concatenation of the formatted contents, in list order. -/
def concatContents (records : List FileContent) : Str :=
  (records.map FileContent.Content).flatten

/-- The tree block that `CombineFiles` writes before the file contents:
for each directory root its absolute path plus the rendered tree, for each
single-file root its path relative to its own parent (absolute on `Rel`
failure). -/
def treeContentOf (stat : Str → Option Entry) (gi : List IgnorePattern)
    (fuel : Nat) (paths : List Str) : Str :=
  paths.foldl
    (fun acc path =>
      let absPath := cleanPath path
      match stat absPath with
      | none => acc
      | some (.dir _ es) =>
        let tree := generateTreeStructure fuel gi (str ".") [] es
        acc ++ absPath ++ str "/\n" ++ (if tree.isEmpty then [] else tree ++ str "\n")
      | some (.file _ _) =>
        acc ++ (goRel (dirOf absPath) absPath).getD absPath ++ str "\n")
    []

/-- The byte content of the combined output artifact: the tree block
followed by the sorted, concatenated records (worker results are sorted by
relative path before writing). -/
def combineArtifact (stat : Str → Option Entry) (readFile : Str → List Nat)
    (gi : List IgnorePattern) (maxKB : Int) (fuel : Nat) (paths : List Str) : Str :=
  let collected := collectPhase stat gi maxKB fuel paths
  let records := combinedRecords readFile (dirOf (paths.headD [])) collected.Regular
  treeContentOf stat gi fuel paths ++ concatContents (sortBy recordLt records)

/-- Substring test (`strings.Contains`). -/
def containsSubstr (needle : Str) : Str → Bool
  | [] => needle.isEmpty
  | c :: rest => needle.isPrefixOf (c :: rest) || containsSubstr needle rest

/-- Fuelled non-overlapping substring count. -/
def countSubstrAux (needle : Str) : Nat → Str → Nat
  | 0, _ => 0
  | Nat.succ fuel, s =>
    match s with
    | [] => 0
    | c :: rest =>
      if needle.isPrefixOf (c :: rest) then
        1 + countSubstrAux needle fuel ((c :: rest).drop needle.length)
      else countSubstrAux needle fuel rest

/-- Number of non-overlapping occurrences of `needle`. -/
def countSubstr (needle s : Str) : Nat := countSubstrAux needle s.length s

/-!  ## Helper lemmas about the matcher -/

theorem matchesPath_singleton (r : RE) (p : Str) :
    matchesPath [{ pattern := r, negate := false }] p = RE.rmatch r p := by
  cases h : RE.rmatch r p <;>
    simp [matchesPath, matchesPathWithPattern, h]

theorem mpwp_foldl_lastMatch (path : Str) :
    ∀ (rules : List IgnorePattern) (acc : Bool × Option IgnorePattern),
      rules.foldl
        (fun acc p =>
          if RE.rmatch p.pattern path then
            (if p.negate then (false, some p) else (true, some p))
          else acc) acc =
      (match rules.reverse.find? (fun r => RE.rmatch r.pattern path) with
       | some r => (!r.negate, some r)
       | none => acc) := by
  intro rules
  induction rules with
  | nil => intro acc; rfl
  | cons r rs ih =>
    intro acc
    rw [List.foldl_cons, ih]
    rw [List.reverse_cons, List.find?_append]
    cases hfind : rs.reverse.find? (fun r => RE.rmatch r.pattern path) with
    | some x => simp [hfind, Option.orElse]
    | none =>
      simp only [hfind, Option.none_orElse, List.find?_singleton]
      cases hr : RE.rmatch r.pattern path with
      | true =>
        simp only [hr, if_pos rfl]
        cases hn : r.negate <;> simp [hn]
      | false => simp [hr]

/-!  ## Claim theorems -/

/-- C3: the claim says the compiled matcher for a pattern beginning with
`**/` matches at any depth, `**/*.log` matching both `a.log` and
`x/y/a.log`.  In the code, step 6 of `parsePatternLine`
(`wildcardDirPattern`, `[^/]\*/`) always fires on a leading `**/` and
prepends a `/`, so the leading-`**/` rewrite of `handleDoubleStarPatterns`
(`doubleStarPattern3`) can never apply; the middle rewrite turns the
pattern into `(/|/.+/)[^/]*\.log`, whose compiled form
`^(|.*/)(/|/.+/)[^/]*\.log(|/.*)$` demands a slash immediately before the
`*.log` segment.  Consequently `**/*.log` matches neither `a.log` nor
`x/y/a.log` (it does match `/x/a.log`), contradicting both the spec and
the evident purpose of `doubleStarPattern3`. -/
theorem c3_leading_doublestar_never_matches_at_depth :
    matchesPath (compileIgnoreLines [str "**/*.log"]) (str "a.log") = false ∧
    matchesPath (compileIgnoreLines [str "**/*.log"]) (str "x/y/a.log") = false ∧
    matchesPath (compileIgnoreLines [str "**/*.log"]) (str "/x/a.log") = true ∧
    rulePreprocess (str "**/*.log") = some (str "/**/*.log", false) := by
  refine ⟨by decide, by decide, by decide, by decide⟩

/-- C4: rule evaluation is a last-match-wins scan in load order — the
fold of `MatchesPathWithPattern` equals "find the last matching rule and
answer with its (un)negated verdict" — and on the rule list
`["build/", "!build/keep.txt"]` the path `build/keep.txt` classifies
not-matched while `build/other.txt` matches; with the rules reversed,
`build/keep.txt` matches again. -/
theorem c4_last_match_wins :
    (∀ (rules : List IgnorePattern) (path : Str),
      matchesPath rules path =
        (match rules.reverse.find? (fun r => RE.rmatch r.pattern path) with
         | some r => !r.negate
         | none => false)) ∧
    matchesPath (compileIgnoreLines [str "build/", str "!build/keep.txt"])
      (str "build/keep.txt") = false ∧
    matchesPath (compileIgnoreLines [str "build/", str "!build/keep.txt"])
      (str "build/other.txt") = true ∧
    matchesPath (compileIgnoreLines [str "!build/keep.txt", str "build/"])
      (str "build/keep.txt") = true := by
  refine ⟨?_, by decide, by decide, by decide⟩
  intro rules path
  show (matchesPathWithPattern rules path).1 = _
  rw [matchesPathWithPattern, mpwp_foldl_lastMatch]
  cases rules.reverse.find? (fun r => RE.rmatch r.pattern path) <;> rfl

theorem count_foldl_eq_countP (p : Nat → Bool) :
    ∀ (l : List Nat) (n : Nat),
      l.foldl (fun n b => if p b then n else n + 1) n = n + l.countP (fun b => !p b) := by
  intro l
  induction l with
  | nil => intro n; simp
  | cons b t ih =>
    intro n
    rw [List.foldl_cons, ih, List.countP_cons]
    cases hb : p b <;> simp [hb] <;> omega

/-- C5: `isBinaryFile` classifies the content as binary exactly when the
first `min(512, size)` bytes contain a NUL byte or the fraction of bytes
outside printable ASCII plus `\n`,`\r`,`\t` strictly exceeds 0.30 (stated
with exact rational arithmetic, which the `float64` computation agrees
with on all inputs — see `isBinaryFile`); in particular a NUL byte among
the first 512 bytes forces the binary classification — no extension is
even consulted — and the empty content is never binary. -/
theorem c5_binary_classification (content : List Nat) :
    (isBinaryFile content = true ↔
      ((content.take 512).contains 0 = true ∨
        (3 : ℚ) / 10 <
          ((content.take 512).countP (fun b => !isPrintable b) : ℚ) /
            ((content.take 512).length : ℚ))) ∧
    ((content.take 512).contains 0 = true → isBinaryFile content = true) ∧
    isBinaryFile [] = false := by
  have key : ∀ buf : List Nat,
      ((if buf.contains 0 then true
        else if buf.length = 0 then false
        else decide (3 * buf.length <
          10 * buf.foldl (fun n b => if isPrintable b then n else n + 1) 0)) = true ↔
        (buf.contains 0 = true ∨
          (3 : ℚ) / 10 < ((buf.countP (fun b => !isPrintable b) : ℕ) : ℚ) / ((buf.length : ℕ) : ℚ))) := by
    intro buf
    cases hz : buf.contains 0 with
    | true => simp [hz]
    | false =>
      rw [if_neg (by simp)]
      cases hbuf : buf with
      | nil =>
        norm_num
      | cons b t =>
        rw [if_neg (by simp), count_foldl_eq_countP, Nat.zero_add, decide_eq_true_iff]
        have hpos : (0 : ℚ) < (((b :: t).length : ℕ) : ℚ) := by
          exact_mod_cast Nat.pos_of_ne_zero (by simp)
        rw [div_lt_div_iff₀ (by norm_num) hpos]
        rw [show ((3 : ℚ) * (((b :: t).length : ℕ) : ℚ)) = ((3 * (b :: t).length : ℕ) : ℚ) by push_cast; ring]
        rw [show ((((b :: t).countP (fun x => !isPrintable x) : ℕ) : ℚ) * 10) = ((10 * (b :: t).countP (fun x => !isPrintable x) : ℕ) : ℚ) by push_cast; ring]
        rw [Nat.cast_lt]
        constructor
        · simp [hz]
        · intro h
          rcases h with h | h
          · exact absurd h (by simp [hz])
          · exact h
  refine ⟨key (content.take 512), ?_, by decide⟩
  intro hz
  show (if (content.take 512).contains 0 then true else _) = true
  rw [hz]
  rfl

/-- C5 witness: the two-byte content `0x00 0x01` (NUL present) is binary,
via the theorem. -/
theorem c5_binary_classification_witness : isBinaryFile [0, 1] = true :=
  (c5_binary_classification [0, 1]).2.1 (by decide)

/-!  ## Fixtures for the concrete scenarios -/

/-- The C7 scenario root `/r`: `a.txt` (10 printable bytes) and `b.bin`
(bytes `0x00 0x01`). -/
def c7Entries : List Entry :=
  [.file (str "a.txt") [48, 49, 50, 51, 52, 53, 54, 55, 56, 57],
   .file (str "b.bin") [0, 1]]

/-- `os.Stat` for the C7 scenario. -/
def c7Stat : Str → Option Entry := fun p =>
  if p = str "/r" then some (.dir (str "r") c7Entries) else none

/-- `os.ReadFile` for the C7 scenario. -/
def c7Read : Str → List Nat := fun p =>
  if p = str "/r/a.txt" then [48, 49, 50, 51, 52, 53, 54, 55, 56, 57]
  else if p = str "/r/b.bin" then [0, 1] else []

/-- The single ignore rule of the C7 scenario. -/
def c7Gi : List IgnorePattern := compileIgnoreLines [str "*.bin"]

/-- C7: with the ignore rule `*.bin` over the root `/r`, traversal yields
regular list `[a.txt]` and an empty binary list (`b.bin` is excluded by
the rule before the binary sniff runs, so it is not reported as a detected
binary), the combined artifact contains exactly one `Source: a.txt`
section and no `b.bin` section, and the rendered tree lists `a.txt` but
omits `b.bin`. -/
theorem c7_scenario_bin_rule :
    traverseAndCollectFiles c7Gi 10240 3 c7Entries = ⟨[str "a.txt"], []⟩ ∧
    collectPhase c7Stat c7Gi 10240 3 [str "/r/"] = ⟨[str "/r/a.txt"], []⟩ ∧
    countSubstr (str "# Source: a.txt #")
      (combineArtifact c7Stat c7Read c7Gi 10240 3 [str "/r/"]) = 1 ∧
    containsSubstr (str "b.bin")
      (combineArtifact c7Stat c7Read c7Gi 10240 3 [str "/r/"]) = false ∧
    containsSubstr (str "a.txt") (treeContentOf c7Stat c7Gi 3 [str "/r/"]) = true := by
  refine ⟨by decide, by decide, by decide, by decide, by decide⟩

/-- C8: a line whose translated regex fails to compile yields no rule and
changes nothing else: rule-set loading stays total (`CompileIgnoreLines`
returns a rule list for every input), the malformed line is dropped, and
every other line of the same source is still compiled — the resulting
rule set, and hence every classification, is the one obtained without the
malformed line. -/
theorem c8_malformed_pattern_dropped
    (pre post : List Str) (line : Str) (p : Str)
    (hfail : ∃ t neg, rulePreprocess line = some (t, neg) ∧
      (compileRegex (translateGlob t)).isNone = true) :
    (parsePatternLine line).isNone = true ∧
    compileIgnoreLines (pre ++ line :: post) = compileIgnoreLines (pre ++ post) ∧
    matchesPath (compileIgnoreLines (pre ++ line :: post)) p =
      matchesPath (compileIgnoreLines (pre ++ post)) p := by
  rcases hfail with ⟨t, neg, hpre, hnone⟩
  rw [Option.isNone_iff_eq_none] at hnone
  have hparse : parsePatternLine line = none := by
    simp only [parsePatternLine, hpre, hnone]
  refine ⟨by rw [hparse]; rfl, ?_, ?_⟩
  · simp [compileIgnoreLines, hparse]
  · simp [compileIgnoreLines, hparse]

/-- C8 witness: the line `a\` (a trailing backslash, which Go's regex
compiler rejects) is dropped between `*.txt` and `*.log`, leaving exactly
the rule set of the two well-formed lines; evaluated at `a.txt`. -/
theorem c8_malformed_pattern_dropped_witness :
    (parsePatternLine (str "a\\")).isNone = true ∧
    compileIgnoreLines [str "*.txt", str "a\\", str "*.log"] =
      compileIgnoreLines [str "*.txt", str "*.log"] ∧
    matchesPath (compileIgnoreLines [str "*.txt", str "a\\", str "*.log"]) (str "a.txt") =
      matchesPath (compileIgnoreLines [str "*.txt", str "*.log"]) (str "a.txt") :=
  c8_malformed_pattern_dropped [str "*.txt"] [str "*.log"] (str "a\\") (str "a.txt")
    ⟨str "a\\", false, by decide, by decide⟩

/-- Root entries for the C1 counterexample: one text file and one binary
file, with no ignore rules at all. -/
def c1Entries : List Entry :=
  [.file (str "a.txt") [65], .file (str "b.bin") [0, 1]]

/-- `os.Stat` for the C1 counterexample root `/q`. -/
def c1Stat : Str → Option Entry := fun p =>
  if p = str "/q" then some (.dir (str "q") c1Entries) else none

/-- `os.ReadFile` for the C1 counterexample. -/
def c1Read : Str → List Nat := fun p =>
  if p = str "/q/a.txt" then [65]
  else if p = str "/q/b.bin" then [0, 1] else []

theorem foldl_cfAppend_regular :
    ∀ (l : List CollectedFiles) (acc : CollectedFiles),
      (l.foldl cfAppend acc).Regular = acc.Regular ++ (l.map CollectedFiles.Regular).flatten := by
  intro l
  induction l with
  | nil => intro acc; simp
  | cons c t ih =>
    intro acc
    rw [List.foldl_cons, ih]
    simp [cfAppend, List.append_assoc]

theorem walk_regular_sub_treePaths :
    ∀ (fuel : Nat) (gi : List IgnorePattern) (maxKB : Int) (rel : Str)
      (es : List Entry) (p : Str),
      p ∈ (walkChildren fuel gi maxKB rel es).Regular → p ∈ treePaths fuel gi rel es := by
  intro fuel
  induction fuel with
  | zero =>
    intro gi maxKB rel es p h
    simp [walkChildren, cfEmpty] at h
  | succ f ih =>
    intro gi maxKB rel es p h
    rw [walkChildren, foldl_cfAppend_regular] at h
    simp only [cfEmpty, List.nil_append, List.map_map, List.mem_flatten] at h
    obtain ⟨l, hl, hpl⟩ := h
    rw [List.mem_map] at hl
    obtain ⟨e, he, rfl⟩ := hl
    have he' : e ∈ es := mem_sortBy.mp he
    rw [treePaths, List.mem_flatMap]
    refine ⟨e, mem_sortBy.mpr he', ?_⟩
    cases e with
    | file nm content =>
      simp only [Function.comp_apply, Entry.name] at hpl ⊢
      by_cases hm : matchesPath gi (joinRel rel nm) = true
      · rw [if_pos hm] at hpl
        exact absurd hpl (by simp [cfEmpty])
      · rw [if_neg hm] at hpl
        rw [if_neg hm]
        by_cases hb : isBinaryFile content = true
        · rw [if_pos hb] at hpl
          exact absurd hpl (by simp)
        · rw [if_neg hb] at hpl
          by_cases hs : (content.length : Int) > maxKB * 1024
          · rw [if_pos hs] at hpl
            exact absurd hpl (by simp [cfEmpty])
          · rw [if_neg hs] at hpl
            exact hpl
    | dir nm es' =>
      simp only [Function.comp_apply, Entry.name] at hpl ⊢
      by_cases hm : matchesPath gi (joinRel rel nm) = true
      · rw [if_pos hm] at hpl
        exact absurd hpl (by simp [cfEmpty])
      · rw [if_neg hm] at hpl
        rw [if_neg hm]
        exact List.mem_cons_of_mem _ (ih gi maxKB (joinRel rel nm) es' p hpl)

/-- C1 counterexample: with no ignore rules, size limit 10 KB, and a root
holding `a.txt` (text) and `b.bin` (bytes `0x00 0x01`), the inclusion
decisions of the three consumers are not identical and a path can appear
in the rendered tree without appearing in the combined artifact: the
traversal classifies `b.bin` binary and keeps it out of the regular list,
while the tree renderer — which applies only the ignore-rule check —
still lists `b.bin`; the artifact has no `Source: b.bin` section. -/
theorem c1_tree_artifact_disagree :
    traverseAndCollectFiles [] 10 3 c1Entries = ⟨[str "a.txt"], [str "b.bin"]⟩ ∧
    (str "b.bin") ∈ treePaths 3 [] (str ".") c1Entries ∧
    containsSubstr (str "b.bin") (treeContentOf c1Stat [] 3 [str "/q/"]) = true ∧
    countSubstr (str "# Source: b.bin #")
      (combineArtifact c1Stat c1Read [] 10 3 [str "/q/"]) = 0 := by
  refine ⟨by decide, by decide, by decide, by decide⟩

/-- C1 amended: for every rule set, size limit and directory tree, the
traversal and the tree renderer consult the same `MatchesPath` on the same
root-relative path, so every file the traversal collects for the combined
artifact also appears in the rendered tree (inclusion in the artifact
implies presence in the tree); the converse fails because the tree
renderer applies only the ignore-rule check and not the binary or size
checks (see the counterexample), and the single-file check evaluates the
rules against the basename rather than a root-relative path. -/
theorem c1_artifact_subset_tree (gi : List IgnorePattern) (maxKB : Int)
    (fuel : Nat) (es : List Entry) (p : Str)
    (h : p ∈ (traverseAndCollectFiles gi maxKB fuel es).Regular) :
    p ∈ treePaths fuel gi (str ".") es := by
  rw [traverseAndCollectFiles] at h
  by_cases hm : matchesPath gi (str ".") = true
  · rw [if_pos hm] at h
    exact absurd h (by simp [cfEmpty])
  · rw [if_neg hm] at h
    exact walk_regular_sub_treePaths fuel gi maxKB (str ".") es p h

/-- C1 witness: the collected file `a.txt` of the counterexample root
indeed appears among the tree renderer's inclusions, via the theorem. -/
theorem c1_artifact_subset_tree_witness :
    (str "a.txt") ∈ treePaths 3 [] (str ".") c1Entries :=
  c1_artifact_subset_tree [] 10 3 c1Entries (str "a.txt") (by decide)

/-!  ## Well-formed directory trees and uniqueness of traversal paths -/

/-- A well-formed file-system name: nonempty, no separator, not `.`
(real directory listings never produce these). -/
def validName (n : Str) : Bool :=
  !n.isEmpty && decide ('/' ∉ n) && decide (n ≠ str ".")

/-- Well-formedness of a directory listing to depth `fuel`: sibling names
are distinct and valid, recursively. -/
def wfEntries : Nat → List Entry → Bool
  | 0, es => es.isEmpty
  | Nat.succ fuel, es =>
    decide ((es.map Entry.name).Nodup) &&
    es.all (fun e =>
      validName e.name &&
      (match e with
       | .file _ _ => true
       | .dir _ es' => wfEntries fuel es'))

theorem wf_succ_elim {f : Nat} {es : List Entry} (h : wfEntries (f + 1) es = true) :
    (es.map Entry.name).Nodup ∧
      ∀ e ∈ es, validName e.name = true ∧
        (∀ nm es', e = .dir nm es' → wfEntries f es' = true) := by
  rw [wfEntries, Bool.and_eq_true, List.all_eq_true] at h
  refine ⟨of_decide_eq_true h.1, ?_⟩
  intro e he
  have := h.2 e he
  rw [Bool.and_eq_true] at this
  refine ⟨this.1, ?_⟩
  intro nm es' hdir
  subst hdir
  exact this.2

theorem joinRel_ne_dot {rel n : Str} (h : validName n = true) :
    joinRel rel n ≠ str "." := by
  rw [validName, Bool.and_eq_true, Bool.and_eq_true] at h
  have hne : n ≠ [] := by
    intro hnil
    rw [hnil] at h
    exact absurd h.1.1 (by decide)
  have hdot : n ≠ str "." := of_decide_eq_true h.2
  rw [joinRel]
  by_cases hrel : rel = str "."
  · rw [if_pos hrel]; exact hdot
  · rw [if_neg hrel]
    intro hcontra
    have hlen := congrArg List.length hcontra
    rw [List.length_append, List.length_cons] at hlen
    have h1 : (str ".").length = 1 := by decide
    rw [h1] at hlen
    have hn : 1 ≤ n.length := List.length_pos.mpr hne
    omega

theorem joinRel_expand (rel n : Str) :
    joinRel rel n = (if rel = str "." then [] else rel ++ [ '/' ]) ++ n := by
  rw [joinRel]
  by_cases h : rel = str "."
  · rw [if_pos h, if_pos h, List.nil_append]
  · rw [if_neg h, if_neg h, List.append_assoc, List.singleton_append]

theorem joinRel_of_ne_dot {rel : Str} (h : rel ≠ str ".") (n : Str) :
    joinRel rel n = rel ++ '/' :: n := by
  rw [joinRel, if_neg h]

/-- If two valid names followed by separator-shaped tails concatenate to
the same string, the names coincide. -/
theorem name_sep_inj :
    ∀ (n₁ n₂ t₁ t₂ : Str), validName n₁ = true → validName n₂ = true →
      (t₁ = [] ∨ t₁.head? = some '/') → (t₂ = [] ∨ t₂.head? = some '/') →
      n₁ ++ t₁ = n₂ ++ t₂ → n₁ = n₂ := by
  have aux : ∀ (n₁ n₂ t₁ t₂ : Str), n₁.length ≤ n₂.length →
      validName n₂ = true → (t₁ = [] ∨ t₁.head? = some '/') →
      n₁ ++ t₁ = n₂ ++ t₂ → n₁ = n₂ := by
    intro n₁ n₂ t₁ t₂ hle h₂ s₁ heq
    have hpre : n₂.take n₁.length = n₁ := by
      have h' := congrArg (List.take n₁.length) heq
      rw [List.take_left, List.take_append_of_le_length hle] at h'
      exact h'.symm
    have hsplit : n₂ = n₁ ++ n₂.drop n₁.length := by
      conv_lhs => rw [← List.take_append_drop n₁.length n₂, hpre]
    rcases Nat.lt_or_ge n₁.length n₂.length with hlt | hge
    · exfalso
      have hmne : n₂.drop n₁.length ≠ [] := by
        intro hnil
        have := congrArg List.length hnil
        simp at this
        omega
      obtain ⟨c, m', hm⟩ := List.exists_cons_of_ne_nil hmne
      have ht₁ : t₁ = (n₂.drop n₁.length) ++ t₂ := by
        have : n₁ ++ t₁ = n₁ ++ (n₂.drop n₁.length ++ t₂) := by
          rw [← List.append_assoc, ← hsplit, heq]
        exact List.append_cancel_left this
      have hc : c = '/' := by
        rcases s₁ with hnil | hhead
        · rw [hnil] at ht₁
          rw [hm] at ht₁
          exact absurd ht₁.symm (by simp)
        · rw [ht₁, hm] at hhead
          simp at hhead
          first
          | exact hhead
          | exact hhead.symm
      have hmem : '/' ∈ n₂ := by
        rw [hsplit, hm, ← hc]
        simp
      rw [validName, Bool.and_eq_true, Bool.and_eq_true] at h₂
      exact absurd hmem (of_decide_eq_true h₂.1.2)
    · have : n₁.length = n₂.length := by omega
      rw [← hpre, List.take_of_length_le (by omega)]
  intro n₁ n₂ t₁ t₂ h₁ h₂ s₁ s₂ heq
  rcases Nat.le_total n₁.length n₂.length with hle | hle
  · exact aux n₁ n₂ t₁ t₂ hle h₂ s₁ heq
  · exact (aux n₂ n₁ t₂ t₁ hle h₁ s₂ heq.symm).symm

theorem pairwise_imp_mem {α : Type _} {R S : α → α → Prop} :
    ∀ {l : List α}, (∀ a ∈ l, ∀ b ∈ l, R a b → S a b) → l.Pairwise R → l.Pairwise S := by
  intro l
  induction l with
  | nil => intro _ _; exact List.Pairwise.nil
  | cons x xs ih =>
    intro h hp
    rcases List.pairwise_cons.mp hp with ⟨hx, hxs⟩
    refine List.pairwise_cons.mpr ⟨fun b hb => h x (by simp) b (by simp [hb]) (hx b hb), ?_⟩
    exact ih (fun a ha b hb => h a (by simp [ha]) b (by simp [hb])) hxs

/-- Every regular path the walk collects under `rel` is the relative path
of some child extended by a (possibly empty) slash-led tail. -/
theorem mem_walk_shape :
    ∀ (fuel : Nat) (gi : List IgnorePattern) (maxKB : Int) (rel : Str)
      (es : List Entry) (p : Str),
      wfEntries fuel es = true →
      p ∈ (walkChildren fuel gi maxKB rel es).Regular →
      ∃ e ∈ es, ∃ t : Str, (t = [] ∨ t.head? = some '/') ∧ p = joinRel rel e.name ++ t := by
  intro fuel
  induction fuel with
  | zero =>
    intro gi maxKB rel es p _ h
    simp [walkChildren, cfEmpty] at h
  | succ f ih =>
    intro gi maxKB rel es p hwf h
    obtain ⟨_, hall⟩ := wf_succ_elim hwf
    rw [walkChildren, foldl_cfAppend_regular] at h
    simp only [cfEmpty, List.nil_append, List.map_map, List.mem_flatten] at h
    obtain ⟨l, hl, hpl⟩ := h
    rw [List.mem_map] at hl
    obtain ⟨e, he, rfl⟩ := hl
    have he' : e ∈ es := mem_sortBy.mp he
    rcases hall e he' with ⟨hvn, hdirwf⟩
    cases e with
    | file nm content =>
      simp only [Function.comp_apply, Entry.name] at hpl
      by_cases hm : matchesPath gi (joinRel rel nm) = true
      · rw [if_pos hm] at hpl
        exact absurd hpl (by simp [cfEmpty])
      · rw [if_neg hm] at hpl
        by_cases hb : isBinaryFile content = true
        · rw [if_pos hb] at hpl
          exact absurd hpl (by simp)
        · rw [if_neg hb] at hpl
          by_cases hs : (content.length : Int) > maxKB * 1024
          · rw [if_pos hs] at hpl
            exact absurd hpl (by simp [cfEmpty])
          · rw [if_neg hs] at hpl
            have hp : p = joinRel rel nm := by simpa using hpl
            exact ⟨.file nm content, he', [], Or.inl rfl, by simp [hp, Entry.name]⟩
    | dir nm es' =>
      simp only [Function.comp_apply, Entry.name] at hpl
      by_cases hm : matchesPath gi (joinRel rel nm) = true
      · rw [if_pos hm] at hpl
        exact absurd hpl (by simp [cfEmpty])
      · rw [if_neg hm] at hpl
        have hvn' : validName nm = true := by simpa [Entry.name] using hvn
        have hwf' : wfEntries f es' = true := hdirwf nm es' rfl
        obtain ⟨e', _, t', ht', hp⟩ := ih gi maxKB (joinRel rel nm) es' p hwf' hpl
        have hnd : joinRel rel nm ≠ str "." := joinRel_ne_dot hvn'
        rw [joinRel_of_ne_dot hnd] at hp
        refine ⟨.dir nm es', he', '/' :: (e'.name ++ t'), Or.inr rfl, ?_⟩
        rw [hp]
        simp [Entry.name, List.append_assoc]

/-- Within one directory root, the traversal never collects the same
relative path twice: sibling names are distinct, and each collected path
is a distinct child's path possibly extended below a separator. -/
theorem walk_regular_nodup :
    ∀ (fuel : Nat) (gi : List IgnorePattern) (maxKB : Int) (rel : Str)
      (es : List Entry),
      wfEntries fuel es = true → ((walkChildren fuel gi maxKB rel es).Regular).Nodup := by
  intro fuel
  induction fuel with
  | zero =>
    intro gi maxKB rel es _
    simp [walkChildren, cfEmpty]
  | succ f ih =>
    intro gi maxKB rel es hwf
    obtain ⟨hnodup, hall⟩ := wf_succ_elim hwf
    have hwf_single : ∀ e ∈ es, wfEntries (Nat.succ f) [e] = true := by
      intro e he
      rcases hall e he with ⟨hvn, hdir⟩
      rw [wfEntries, Bool.and_eq_true]
      refine ⟨by simp, ?_⟩
      rw [List.all_eq_true]
      intro e' he'
      rcases List.mem_singleton.mp he' with rfl
      rw [Bool.and_eq_true]
      refine ⟨hvn, ?_⟩
      cases e' with
      | file _ _ => rfl
      | dir nm es' => exact hdir nm es' rfl
    rw [walkChildren, foldl_cfAppend_regular]
    simp only [cfEmpty, List.nil_append, List.map_map]
    rw [List.nodup_flatten]
    constructor
    · intro l hl
      rw [List.mem_map] at hl
      obtain ⟨e, he, rfl⟩ := hl
      have he' : e ∈ es := mem_sortBy.mp he
      rcases hall e he' with ⟨_, hdir⟩
      cases e with
      | file nm content =>
        simp only [Function.comp_apply]
        split_ifs <;> simp [cfEmpty]
      | dir nm es' =>
        simp only [Function.comp_apply]
        split_ifs
        · simp [cfEmpty]
        · exact ih gi maxKB (joinRel rel nm) es' (hdir nm es' rfl)
    · rw [List.pairwise_map]
      have hnames : (sortBy walkLt es).Pairwise (fun a b => Entry.name a ≠ Entry.name b) := by
        have hperm := (sortBy_perm walkLt es).map Entry.name
        have hnd : ((sortBy walkLt es).map Entry.name).Nodup := hperm.nodup_iff.mpr hnodup
        exact List.pairwise_map.mp hnd
      refine pairwise_imp_mem ?_ hnames
      intro e₁ h₁ e₂ h₂ hne
      intro p hp₁ hp₂
      have hm₁ : e₁ ∈ es := mem_sortBy.mp h₁
      have hm₂ : e₂ ∈ es := mem_sortBy.mp h₂
      have hq₁ : p ∈ (walkChildren (Nat.succ f) gi maxKB rel [e₁]).Regular := hp₁
      have hq₂ : p ∈ (walkChildren (Nat.succ f) gi maxKB rel [e₂]).Regular := hp₂
      obtain ⟨e₁', he₁', t₁, ht₁, hp₁'⟩ :=
        mem_walk_shape (Nat.succ f) gi maxKB rel [e₁] p (hwf_single e₁ hm₁) hq₁
      obtain ⟨e₂', he₂', t₂, ht₂, hp₂'⟩ :=
        mem_walk_shape (Nat.succ f) gi maxKB rel [e₂] p (hwf_single e₂ hm₂) hq₂
      rw [List.mem_singleton.mp he₁'] at hp₁'
      rw [List.mem_singleton.mp he₂'] at hp₂'
      rw [joinRel_expand] at hp₁' hp₂'
      rw [hp₁', List.append_assoc] at hp₂'
      rw [List.append_assoc] at hp₂'
      have hmid := List.append_cancel_left hp₂'
      exact hne (name_sep_inj e₁.name e₂.name t₁ t₂ (hall e₁ hm₁).1 (hall e₂ hm₂).1 ht₁ ht₂ hmid)

/-- C9 counterexample: when the same root is requested twice, the
collection phase of `CombineFiles` concatenates the two traversals without
deduplication, so the produced records repeat a relative path (`q/a.txt`
appears twice; the duplicate records are byte-identical, but the paths are
not pairwise distinct as claimed). -/
theorem c9_duplicate_paths_on_repeated_roots :
    (collectPhase c1Stat [] 10 3 [str "/q", str "/q"]).Regular =
      [str "/q/a.txt", str "/q/a.txt"] ∧
    ((combinedRecords c1Read (dirOf (str "/q"))
        (collectPhase c1Stat [] 10 3 [str "/q", str "/q"]).Regular).map
      FileContent.Path) = [str "q/a.txt", str "q/a.txt"] ∧
    ¬ ((combinedRecords c1Read (dirOf (str "/q"))
        (collectPhase c1Stat [] 10 3 [str "/q", str "/q"]).Regular).map
      FileContent.Path).Nodup := by
  refine ⟨by decide, by decide, by decide⟩

/-- C9 amended: within a single directory root, the traversal visits each
filesystem entry once and the collected relative paths are pairwise
distinct (for every rule set, size limit, and well-formed directory tree —
distinct sibling names, no separators inside names); with repeated or
nested roots the per-root results are concatenated without deduplication
and duplicates occur (see the counterexample). -/
theorem c9_single_root_paths_distinct (gi : List IgnorePattern) (maxKB : Int)
    (fuel : Nat) (es : List Entry) (h : wfEntries fuel es = true) :
    ((traverseAndCollectFiles gi maxKB fuel es).Regular).Nodup := by
  rw [traverseAndCollectFiles]
  by_cases hm : matchesPath gi (str ".") = true
  · rw [if_pos hm]
    simp [cfEmpty]
  · rw [if_neg hm]
    exact walk_regular_nodup fuel gi maxKB (str ".") es h

/-- C9 witness: the counterexample root, traversed once, has distinct
paths — via the theorem. -/
theorem c9_single_root_paths_distinct_witness :
    ((traverseAndCollectFiles [] 10 3 c1Entries).Regular).Nodup :=
  c9_single_root_paths_distinct [] 10 3 c1Entries (by decide)

/-!  ## Determinism of the sorted output (C6) -/

/-- The postcondition of `sort.Slice` with comparison `recordLt`: no later
record's path is strictly below an earlier one's. -/
abbrev sortedByPath (l : List FileContent) : Prop :=
  l.Pairwise (fun a b => ltStr b.Path a.Path = false)

theorem sorted_perm_eq :
    ∀ (l₁ l₂ : List FileContent), List.Perm l₁ l₂ →
      sortedByPath l₁ → sortedByPath l₂ →
      (∀ a ∈ l₁, ∀ b ∈ l₁, a.Path = b.Path → a = b) → l₁ = l₂ := by
  intro l₁
  induction l₁ with
  | nil =>
    intro l₂ hperm _ _ _
    exact (hperm.nil_eq).symm ▸ rfl
  | cons a t₁ ih =>
    intro l₂ hperm hs₁ hs₂ hfun
    cases l₂ with
    | nil => exact absurd hperm.symm.nil_eq (by simp)
    | cons b t₂ =>
      have hab : a = b := by
        have hain : a ∈ b :: t₂ := hperm.mem_iff.mp (by simp)
        have hbin : b ∈ a :: t₁ := hperm.mem_iff.mpr (by simp)
        rcases List.mem_cons.mp hain with h₁ | h₁
        · exact h₁
        rcases List.mem_cons.mp hbin with h₂ | h₂
        · exact h₂.symm
        have hle₁ : ltStr b.Path a.Path = false :=
          (List.pairwise_cons.mp hs₁).1 b h₂
        have hle₂ : ltStr a.Path b.Path = false :=
          (List.pairwise_cons.mp hs₂).1 a h₁
        have hpatheq : b.Path = a.Path := ltStr_antisymm _ _ hle₁ hle₂
        exact (hfun a (by simp) b (by simp [h₂]) hpatheq.symm).symm ▸ rfl
      subst hab
      have hperm' : List.Perm t₁ t₂ := hperm.cons_inv
      have ht := ih t₂ hperm' (List.pairwise_cons.mp hs₁).2 (List.pairwise_cons.mp hs₂).2
        (fun x hx y hy hxy => hfun x (by simp [hx]) y (by simp [hy]) hxy)
      rw [ht]

/-- C6: the combined artifact's concatenation is deterministic with
respect to scheduling.  For a fixed collected file list (over any content
map and worker-relative base directory, with the resulting relative paths
injective on the list — which holds for collected lists, as relativization
against a fixed base is injective), any two result sequences delivered by
any worker counts and completion interleavings are permutations of the
same records; sorting either by relative path (with Go's unstable
`sort.Slice`, any sorted permutation whatsoever) and concatenating yields
byte-identical output. -/
theorem c6_sorted_output_deterministic
    (readFile : Str → List Nat) (parentDir : Str) (files : List Str)
    (l₁ l₂ o₁ o₂ : List FileContent)
    (hinj : ∀ f₁ ∈ files, ∀ f₂ ∈ files,
      (processSingleFile readFile parentDir f₁).Path =
        (processSingleFile readFile parentDir f₂).Path → f₁ = f₂)
    (hl₁ : List.Perm l₁ (combinedRecords readFile parentDir files))
    (hl₂ : List.Perm l₂ (combinedRecords readFile parentDir files))
    (ho₁ : List.Perm o₁ l₁) (hs₁ : sortedByPath o₁)
    (ho₂ : List.Perm o₂ l₂) (hs₂ : sortedByPath o₂) :
    concatContents o₁ = concatContents o₂ := by
  have hperm : List.Perm o₁ o₂ :=
    ((ho₁.trans hl₁).trans (ho₂.trans hl₂).symm)
  have hfun : ∀ a ∈ o₁, ∀ b ∈ o₁, a.Path = b.Path → a = b := by
    intro x hx y hy hxy
    have hx' : x ∈ combinedRecords readFile parentDir files :=
      (ho₁.trans hl₁).mem_iff.mp hx
    have hy' : y ∈ combinedRecords readFile parentDir files :=
      (ho₁.trans hl₁).mem_iff.mp hy
    rw [combinedRecords, List.mem_map] at hx' hy'
    obtain ⟨f₁, hf₁, rfl⟩ := hx'
    obtain ⟨f₂, hf₂, rfl⟩ := hy'
    rw [hinj f₁ hf₁ f₂ hf₂ hxy]
  rw [sorted_perm_eq o₁ o₂ hperm hs₁ hs₂ hfun]

/-- C6 witness: two files delivered in opposite orders by different
interleavings, sorted, concatenate identically — via the theorem. -/
theorem c6_sorted_output_deterministic_witness :
    concatContents
      [processSingleFile c1Read (str "/q") (str "/q/a.txt"),
       processSingleFile c1Read (str "/q") (str "/q/b.bin")] =
    concatContents
      [processSingleFile c1Read (str "/q") (str "/q/a.txt"),
       processSingleFile c1Read (str "/q") (str "/q/b.bin")] :=
  c6_sorted_output_deterministic c1Read (str "/q")
    [str "/q/a.txt", str "/q/b.bin"]
    (combinedRecords c1Read (str "/q") [str "/q/a.txt", str "/q/b.bin"])
    ((combinedRecords c1Read (str "/q") [str "/q/a.txt", str "/q/b.bin"]).reverse)
    [processSingleFile c1Read (str "/q") (str "/q/a.txt"),
     processSingleFile c1Read (str "/q") (str "/q/b.bin")]
    [processSingleFile c1Read (str "/q") (str "/q/a.txt"),
     processSingleFile c1Read (str "/q") (str "/q/b.bin")]
    (by decide) (by decide) (by decide) (by decide) (by decide) (by decide) (by decide)

/-!  ## Characterizing the compiled matcher of plain glob patterns

A *plain* pattern contains none of `*`, `?`, `\`.  For such patterns the
double-star and wildcard rewrites are the identity, and the compiled regex
is the anchoring wrapped around the escaped pattern — a literal character
chain.  This yields closed forms for the compiled matcher that drive the
claims about trailing-slash directory patterns and about patterns
containing a `/`. -/

/-- The special characters escaped by `escapeSpecialChars`, as a list. -/
def specialsList : Str := str ".+()|^$[]\x7b\x7d"

/-- A pattern with no glob metacharacter and no backslash. -/
def plainGlob (t : Str) : Bool := t.all (fun c => !(c == '*' || c == '?' || c == '\\'))

theorem replaceAllChar_append (n : Char) (r : Str) (a b : Str) :
    replaceAllChar n r (a ++ b) = replaceAllChar n r a ++ replaceAllChar n r b :=
  List.flatMap_append a b _

theorem foldl_replace_append :
    ∀ (cs : List Char) (a b : Str),
      List.foldl (fun p c => replaceAllChar c ['\\', c] p) (a ++ b) cs =
        List.foldl (fun p c => replaceAllChar c ['\\', c] p) a cs ++
          List.foldl (fun p c => replaceAllChar c ['\\', c] p) b cs := by
  intro cs
  induction cs with
  | nil => intro a b; rfl
  | cons c cs ih =>
    intro a b
    rw [List.foldl_cons, List.foldl_cons, List.foldl_cons, replaceAllChar_append]
    exact ih _ _

theorem escape_append (a b : Str) :
    escapeSpecialChars (a ++ b) = escapeSpecialChars a ++ escapeSpecialChars b :=
  foldl_replace_append (str ".+()|^$[]\x7b\x7d") a b

/-- The escape of a single character. -/
def escChar (c : Char) : Str := escapeSpecialChars [c]

theorem escape_cons (c : Char) (t : Str) :
    escapeSpecialChars (c :: t) = escChar c ++ escapeSpecialChars t := by
  rw [show (c :: t) = [c] ++ t from rfl, escape_append]
  rfl

theorem escChar_eq (c : Char) :
    escChar c = if c ∈ specialsList then ['\\', c] else [c] := by
  by_cases h : c ∈ specialsList
  · rw [if_pos h]
    rw [show specialsList = ['.', '+', '(', ')', '|', '^', '$', '[', ']', '\x7b', '\x7d'] from by decide] at h
    simp only [List.mem_cons, List.not_mem_nil, or_false] at h
    rcases h with rfl | rfl | rfl | rfl | rfl | rfl | rfl | rfl | rfl | rfl | rfl <;> decide
  · rw [if_neg h]
    rw [show specialsList = ['.', '+', '(', ')', '|', '^', '$', '[', ']', '\x7b', '\x7d'] from by decide] at h
    simp only [List.mem_cons, not_or, List.not_mem_nil, not_false_iff, and_true] at h
    obtain ⟨h1, h2, h3, h4, h5, h6, h7, h8, h9, h10, h11⟩ := h
    have step : ∀ s : Char, c ≠ s → replaceAllChar s ['\\', s] [c] = [c] := by
      intro s hs
      simp [replaceAllChar, hs]
    simp only [escChar, escapeSpecialChars]
    rw [show str ".+()|^$[]\x7b\x7d" = ['.', '+', '(', ')', '|', '^', '$', '[', ']', '\x7b', '\x7d'] from by decide]
    simp only [List.foldl_cons, List.foldl_nil,
      step '.' h1, step '+' h2, step '(' h3, step ')' h4, step '|' h5,
      step '^' h6, step '$' h7, step '[' h8, step ']' h9, step '\x7b' h10, step '\x7d' h11]

theorem escChar_ne_nil (c : Char) : escChar c ≠ [] := by
  rw [escChar_eq]
  by_cases h : c ∈ specialsList <;> simp [h]

/-- `escapeSpecialChars` acts independently on each character. -/
theorem escape_flatMap (t : Str) : escapeSpecialChars t = t.flatMap escChar := by
  induction t with
  | nil => rfl
  | cons c t ih => rw [escape_cons, ih, List.flatMap_cons]

/-- Characters of the escaped text are the original characters plus
backslashes. -/
theorem mem_escape (a : Char) (t : Str) (h : a ∈ t.flatMap escChar) :
    a = '\\' ∨ a ∈ t := by
  rcases List.mem_flatMap.mp h with ⟨c, hc, ha⟩
  rw [escChar_eq] at ha
  by_cases hs : c ∈ specialsList
  · rw [if_pos hs] at ha
    rcases List.mem_cons.mp ha with h1 | h1
    · exact Or.inl h1
    · exact Or.inr (List.mem_singleton.mp h1 ▸ hc)
  · rw [if_neg hs] at ha
    exact Or.inr (List.mem_singleton.mp ha ▸ hc)

theorem escape_length_ge (t : Str) : t.length ≤ (t.flatMap escChar).length := by
  induction t with
  | nil => simp
  | cons c t ih =>
    rw [List.flatMap_cons, List.length_append, List.length_cons]
    have : 1 ≤ (escChar c).length := by
      rcases List.exists_cons_of_ne_nil (escChar_ne_nil c) with ⟨a, l, hl⟩
      simp [hl]
    omega

/-- Head of the escaped text: a backslash for a special first character,
the character itself otherwise. -/
theorem escape_head (c : Char) (t : Str) :
    ((c :: t).flatMap escChar).head? =
      some (if c ∈ specialsList then '\\' else c) := by
  rw [List.flatMap_cons, escChar_eq]
  by_cases h : c ∈ specialsList <;> simp [h]

/-- `plainGlob` unpacked. -/
theorem plain_not_mem (t : Str) (h : plainGlob t = true) :
    '*' ∉ t ∧ '?' ∉ t ∧ '\\' ∉ t := by
  have hall := List.all_eq_true.mp h
  refine ⟨fun hm => ?_, fun hm => ?_, fun hm => ?_⟩
  · have := hall _ hm; simp at this
  · have := hall _ hm; simp at this
  · have := hall _ hm; simp at this

theorem isPrefixOf_eq_false {x : Char} {n s : Str} (hn : x ∈ n) (hs : x ∉ s) :
    n.isPrefixOf s = false := by
  rw [Bool.eq_false_iff]
  intro h
  exact hs ((List.isPrefixOf_iff_prefix.mp h).subset hn)

theorem isSuffixOf_eq_false {x : Char} {n s : Str} (hn : x ∈ n) (hs : x ∉ s) :
    n.isSuffixOf s = false := by
  rw [Bool.eq_false_iff]
  intro h
  exact hs ((List.isSuffixOf_iff_suffix.mp h).subset hn)

theorem replaceSubAux_id {x : Char} {needle repl : Str} (hn : x ∈ needle) :
    ∀ (fuel : Nat) (s : Str), x ∉ s → replaceSubAux needle repl fuel s = s := by
  intro fuel
  induction fuel with
  | zero => intro s _; rfl
  | succ fuel ih =>
    intro s hs
    match s with
    | [] => rfl
    | c :: rest =>
      rw [replaceSubAux]
      rw [if_neg]
      · rw [ih rest (fun hm => hs (List.mem_cons_of_mem c hm))]
      · rintro ⟨-, hpre⟩
        rw [isPrefixOf_eq_false hn hs] at hpre
        exact Bool.false_ne_true hpre

theorem replaceAllSub_id {x : Char} {needle repl s : Str} (hn : x ∈ needle) (hs : x ∉ s) :
    replaceAllSub needle repl s = s :=
  replaceSubAux_id hn s.length s hs

/-- On star-free text the double-star rewrites change nothing. -/
theorem handleDoubleStar_id {p : Str} (h : '*' ∉ p) :
    handleDoubleStarPatterns p = p := by
  have hstar1 : '*' ∈ str "/**/" := by decide
  have hstar2 : '*' ∈ str "/**" := by decide
  have hstar3 : '*' ∈ str "**/" := by decide
  have hc2 : ¬ ((str "/**").isSuffixOf p = true) := by
    rw [isSuffixOf_eq_false hstar2 h]; exact Bool.false_ne_true
  have hc3 : ¬ ((str "**/").isPrefixOf p = true) := by
    rw [isPrefixOf_eq_false hstar3 h]; exact Bool.false_ne_true
  unfold handleDoubleStarPatterns
  rw [replaceAllSub_id hstar1 h]
  simp only [if_neg hc2, if_neg hc3]

theorem replaceAllChar_id {n : Char} {r s : Str} (h : n ∉ s) :
    replaceAllChar n r s = s := by
  induction s with
  | nil => rfl
  | cons c t ih =>
    have hc : ¬ c = n := fun hc => h (by rw [← hc]; exact List.mem_cons_self c t)
    have ht := ih (fun hm => h (List.mem_cons_of_mem c hm))
    rw [replaceAllChar] at ht ⊢
    rw [List.flatMap_cons, if_neg hc, ht]
    rfl

/-- On text free of `*` and `?` the wildcard rewrite changes nothing. -/
theorem wildcardToRegex_id {p : Str} (h1 : '*' ∉ p) (h2 : '?' ∉ p) :
    wildcardToRegex p = p := by
  unfold wildcardToRegex
  rw [replaceAllChar_id h1]
  have : ∀ c ∈ p, (if c = '?' then '.' else c) = c := by
    intro c hc
    rw [if_neg (fun hq => h2 (by rw [← hq]; exact hc))]
  calc p.map (fun c => if c = '?' then '.' else c) = p.map id := List.map_congr_left this
    _ = p := List.map_id p

/-- For plain patterns the translator is just escaping plus anchoring. -/
theorem translateGlob_plain {t : Str} (h : plainGlob t = true) :
    translateGlob t = anchorPattern (t.flatMap escChar) t := by
  obtain ⟨h1, h2, _⟩ := plain_not_mem t h
  have hstar : '*' ∉ t.flatMap escChar := fun hm => by
    rcases mem_escape _ _ hm with h | h
    · exact absurd h (by decide)
    · exact h1 h
  have hq : '?' ∉ t.flatMap escChar := fun hm => by
    rcases mem_escape _ _ hm with h | h
    · exact absurd h (by decide)
    · exact h2 h
  unfold translateGlob
  rw [escape_flatMap, handleDoubleStar_id hstar, wildcardToRegex_id hstar hq]

theorem wildcardDirMatch_no_star {s : Str} (h : '*' ∉ s) :
    wildcardDirMatch s = false := by
  induction s with
  | nil => rfl
  | cons a s ih =>
    have hs : '*' ∉ s := fun hm => h (List.mem_cons_of_mem a hm)
    match s, hs, ih with
    | [], _, _ => rfl
    | [b], _, _ => rfl
    | b :: c :: rest, hs, ih =>
      rw [wildcardDirMatch, ih hs, Bool.or_false]
      have hb : ¬ b = '*' := fun hb => hs (by rw [← hb]; exact List.mem_cons_self b _)
      simp [hb]

theorem dropWhile_eq_self {p : Char → Bool} {s : Str}
    (h : ∀ c, s.head? = some c → p c = false) : s.dropWhile p = s := by
  cases s with
  | nil => rfl
  | cons c t =>
    rw [List.dropWhile_cons, if_neg]
    rw [h c rfl]
    exact Bool.false_ne_true

/-- Preprocessing (steps 1–6) leaves a plain pattern untouched when its
first character is not `#`, `!` or whitespace and its last character is
not whitespace. -/
theorem rulePreprocess_plain (t : Str) (hne : t ≠ []) (hplain : plainGlob t = true)
    (hhead : ∀ c, t.head? = some c → (c ≠ '#' ∧ c ≠ '!' ∧ isGoSpace c = false))
    (hlast : ∀ c, t.getLast? = some c → isGoSpace c = false) :
    rulePreprocess t = some (t, false) := by
  obtain ⟨hstar, -, hbs⟩ := plain_not_mem t hplain
  have hcrlf : trimRightCRLF t = t := by
    rw [trimRightCRLF, dropWhile_eq_self, List.reverse_reverse]
    intro c hc
    rw [List.head?_reverse] at hc
    have := hlast c hc
    revert this
    rw [isGoSpace]
    cases hr : c == '\r' <;> cases hn : c == '\n' <;> simp_all
  have htrim : trimSpace t = t := by
    rw [trimSpace, dropWhile_eq_self (fun c hc => (hhead c hc).2.2),
      dropWhile_eq_self, List.reverse_reverse]
    intro c hc
    rw [List.head?_reverse] at hc
    exact hlast c hc
  have hempty : t.isEmpty = false := by
    cases t with
    | nil => exact absurd rfl hne
    | cons a l => rfl
  have hhash : ¬ (t.head? = some '#') := by
    rcases List.exists_cons_of_ne_nil hne with ⟨a, l, rfl⟩
    intro hc
    exact (hhead a rfl).1 (by simpa using hc)
  have hbang : ¬ (t.head? = some '!') := by
    rcases List.exists_cons_of_ne_nil hne with ⟨a, l, rfl⟩
    intro hc
    exact (hhead a rfl).2.1 (by simpa using hc)
  have hpre1 : (str "\\#").isPrefixOf t = false :=
    isPrefixOf_eq_false (show ('\\' : Char) ∈ str "\\#" by decide) hbs
  have hpre2 : (str "\\!").isPrefixOf t = false :=
    isPrefixOf_eq_false (show ('\\' : Char) ∈ str "\\!" by decide) hbs
  have hwdm : wildcardDirMatch t = false := wildcardDirMatch_no_star hstar
  simp [rulePreprocess, hcrlf, htrim, hempty, hhash, hbang, hpre1, hpre2, hwdm]

/-- A chain of single-character literals in front of a continuation. -/
def litChain : Str → RE → RE
  | [], k => k
  | c :: t, k => RE.cat (RE.cls (fun x => x == c)) (litChain t k)

/-- The next character cannot be mistaken for a postfix operator. -/
def headSafe : Option Char → Prop
  | some c => c ≠ '*' ∧ c ≠ '+' ∧ c ≠ '?'
  | none => True

theorem escAtom_special {c : Char} (h : c ∈ specialsList) :
    escAtom c = some (RE.cls (fun x => x == c)) := by
  rw [show specialsList = ['.', '+', '(', ')', '|', '^', '$', '[', ']', '\x7b', '\x7d'] from by decide] at h
  simp only [List.mem_cons, List.not_mem_nil, or_false] at h
  rcases h with rfl | rfl | rfl | rfl | rfl | rfl | rfl | rfl | rfl | rfl | rfl <;> rfl

theorem parseSeq_esc_cons {c : Char} (hc1 : c ≠ '*') (hc2 : c ≠ '?') (hc3 : c ≠ '\\')
    {s : Str} (hs : headSafe s.head?) (g : Nat) :
    parseSeq (g + 3) (escChar c ++ s) =
      (parseSeq (g + 2) s).map (fun pr => (RE.cat (RE.cls (fun x => x == c)) pr.1, pr.2)) := by
  by_cases hmem : c ∈ specialsList
  · have hesc : escChar c = ['\\', c] := by rw [escChar_eq, if_pos hmem]
    have hatom : parseAtom (g + 1) ('\\' :: c :: s) = some (RE.cls (fun x => x == c), s) := by
      show (match escAtom c with
            | none => (none : Option (RE × Str))
            | some r => some (r, s)) = some (RE.cls (fun x => x == c), s)
      rw [escAtom_special hmem]
    have hfac : parseFactor (g + 2) ('\\' :: c :: s) = some (RE.cls (fun x => x == c), s) := by
      show (match parseAtom (g + 1) ('\\' :: c :: s) with
            | none => (none : Option (RE × Str))
            | some (r, rest) =>
              match rest with
              | '*' :: t => some (RE.star r, t)
              | '+' :: t => some (RE.cat r (RE.star r), t)
              | '?' :: t => some (RE.alt RE.eps r, t)
              | _ => some (r, rest)) = some (RE.cls (fun x => x == c), s)
      simp only [hatom]
      cases s with
      | nil => rfl
      | cons a s' =>
        obtain ⟨h1, h2, h3⟩ := hs
        split <;> simp_all
    rw [hesc]
    show (match parseFactor (g + 2) ('\\' :: c :: s) with
          | none => (none : Option (RE × Str))
          | some (r, rest) =>
            match parseSeq (g + 2) rest with
            | none => none
            | some (r₂, rest₂) => some (RE.cat r r₂, rest₂)) = _
    simp only [hfac]
    cases parseSeq (g + 2) s with
    | none => rfl
    | some pr => cases pr; rfl
  · have hesc : escChar c = [c] := by rw [escChar_eq, if_neg hmem]
    have hnot : ∀ x, x ∈ specialsList → c ≠ x := fun x hx hcx => hmem (by rw [hcx]; exact hx)
    have d1 : c ≠ '(' := hnot '(' (by decide)
    have d2 : c ≠ '[' := hnot '[' (by decide)
    have d3 : c ≠ '.' := hnot '.' (by decide)
    have d4 : c ≠ ')' := hnot ')' (by decide)
    have d5 : c ≠ '|' := hnot '|' (by decide)
    have d6 : c ≠ '+' := hnot '+' (by decide)
    have d7 : c ≠ '^' := hnot '^' (by decide)
    have d8 : c ≠ '$' := hnot '$' (by decide)
    have hatom : parseAtom (g + 1) (c :: s) = some (RE.cls (fun x => x == c), s) := by
      show parseAtom (Nat.succ g) (c :: s) = some (RE.cls (fun x => x == c), s)
      rw [parseAtom]
      · split <;> intros <;> simp_all [Bool.or_eq_true, beq_iff_eq]
      all_goals intros
      all_goals simp_all
    have hfac : parseFactor (g + 2) (c :: s) = some (RE.cls (fun x => x == c), s) := by
      show (match parseAtom (g + 1) (c :: s) with
            | none => (none : Option (RE × Str))
            | some (r, rest) =>
              match rest with
              | '*' :: t => some (RE.star r, t)
              | '+' :: t => some (RE.cat r (RE.star r), t)
              | '?' :: t => some (RE.alt RE.eps r, t)
              | _ => some (r, rest)) = some (RE.cls (fun x => x == c), s)
      simp only [hatom]
      cases s with
      | nil => rfl
      | cons a s' =>
        obtain ⟨h1, h2, h3⟩ := hs
        split <;> simp_all
    rw [hesc]
    show parseSeq (Nat.succ (g + 2)) (c :: s) = _
    rw [parseSeq]
    rw [if_neg (by simp [Bool.or_eq_true, beq_iff_eq, d4, d5])]
    simp only [hfac]
    cases parseSeq (g + 2) s with
    | none => rfl
    | some pr => cases pr; rfl

theorem chain_headSafe (t : Str) (hplain : plainGlob t = true) {s : Str}
    (hs : headSafe s.head?) : headSafe ((t.flatMap escChar) ++ s).head? := by
  cases t with
  | nil => simpa using hs
  | cons c t' =>
    rw [show ((c :: t').flatMap escChar ++ s) = escChar c ++ (t'.flatMap escChar ++ s) from by
      simp [List.flatMap_cons]]
    rw [escChar_eq]
    by_cases h : c ∈ specialsList
    · rw [if_pos h]
      show headSafe (some '\\')
      exact ⟨by decide, by decide, by decide⟩
    · rw [if_neg h]
      show headSafe (some c)
      have hall := List.all_eq_true.mp hplain
      have hcp := hall c (List.mem_cons_self c t')
      have hplus : c ≠ '+' := fun hp => h (by rw [hp]; decide)
      refine ⟨?_, hplus, ?_⟩ <;> · intro he; rw [he] at hcp; simp at hcp

theorem parseSeq_chain : ∀ (t : Str), plainGlob t = true → ∀ (s : Str), headSafe s.head? →
    ∀ (f : Nat),
      parseSeq (t.length + f + 3) (t.flatMap escChar ++ s) =
        (parseSeq (f + 3) s).map (fun pr => (litChain t pr.1, pr.2)) := by
  intro t
  induction t with
  | nil =>
    intro _ s _ f
    rw [show ([] : Str).length + f + 3 = f + 3 from by simp]
    rw [show (([] : Str).flatMap escChar ++ s) = s from by simp]
    cases parseSeq (f + 3) s with
    | none => rfl
    | some pr => cases pr; rfl
  | cons c t' ih =>
    intro hplain s hs f
    have hall := List.all_eq_true.mp hplain
    have hplain' : plainGlob t' = true :=
      List.all_eq_true.mpr (fun x hx => hall x (List.mem_cons_of_mem c hx))
    have hcp := hall c (List.mem_cons_self c t')
    have hc1 : c ≠ '*' := fun he => by rw [he] at hcp; simp at hcp
    have hc2 : c ≠ '?' := fun he => by rw [he] at hcp; simp at hcp
    have hc3 : c ≠ '\\' := fun he => by rw [he] at hcp; simp at hcp
    have hsafe : headSafe (t'.flatMap escChar ++ s).head? := chain_headSafe t' hplain' hs
    rw [show ((c :: t').flatMap escChar ++ s) = escChar c ++ (t'.flatMap escChar ++ s) from by
      simp [List.flatMap_cons]]
    rw [show (c :: t').length + f + 3 = (t'.length + f + 1) + 3 from by simp; omega]
    rw [parseSeq_esc_cons hc1 hc2 hc3 hsafe (t'.length + f + 1)]
    rw [show t'.length + f + 1 + 2 = t'.length + f + 3 from by omega]
    rw [ih hplain' s hs f]
    cases parseSeq (f + 3) s with
    | none => rfl
    | some pr => cases pr; rfl

/-- The Go `.` atom (anything but newline). -/
def dotC : RE := RE.cls (fun c => c != '\n')

/-- The literal `/` atom. -/
def slashC : RE := RE.cls (fun x => x == '/')

/-- Compiled form of the leading anchor group `(|.*/)`. -/
def G1 : RE := RE.alt RE.eps (RE.cat (RE.star dotC) (RE.cat slashC RE.eps))

/-- Compiled form of the trailing group `(|.*)` (directory patterns). -/
def G2 : RE := RE.alt RE.eps (RE.cat (RE.star dotC) RE.eps)

/-- Compiled form of the trailing group `(|/.*)` (file patterns). -/
def G3 : RE := RE.alt RE.eps (RE.cat slashC (RE.cat (RE.star dotC) RE.eps))

/-- Trailing group selected by `anchorPattern` for a plain pattern. -/
def tailG (t : Str) : RE := if t.getLast? = some '/' then G2 else G3

/-- Leading wrapper selected by `anchorPattern` for a plain pattern. -/
def wrapHead (t : Str) (r : RE) : RE := if t.head? = some '/' then r else RE.cat G1 r

theorem parseAtom_group1 (g : Nat) (s : Str) :
    parseAtom (g + 8) ('(' :: '|' :: '.' :: '*' :: '/' :: ')' :: s) = some (G1, s) := rfl

theorem parseSeq_tail2 (g : Nat) :
    parseSeq (g + 9) (str "(|.*)") = some (RE.cat G2 RE.eps, []) := rfl

theorem parseSeq_tail3 (g : Nat) :
    parseSeq (g + 9) (str "(|/.*)") = some (RE.cat G3 RE.eps, []) := rfl

theorem getLast?_app {a b : Str} (h : b ≠ []) : (a ++ b).getLast? = b.getLast? :=
  List.getLast?_append_of_ne_nil a h

theorem dropLast_app {a b : Str} (h : b ≠ []) : (a ++ b).dropLast = a ++ b.dropLast := by
  induction a with
  | nil => rfl
  | cons x a ih =>
    have hne : a ++ b ≠ [] := fun hc => h (List.append_eq_nil.mp hc).2
    rcases List.exists_cons_of_ne_nil hne with ⟨y, l, hyl⟩
    rw [List.cons_append, hyl, List.dropLast_cons₂, ← hyl, ih, List.cons_append]

theorem escape_ne_nil {t : Str} (h : t ≠ []) : t.flatMap escChar ≠ [] := by
  rcases List.exists_cons_of_ne_nil h with ⟨c, t', rfl⟩
  rw [List.flatMap_cons]
  intro hc
  exact escChar_ne_nil c (List.append_eq_nil.mp hc).1

theorem escape_append_head (c : Char) (t r : Str) :
    (((c :: t).flatMap escChar) ++ r).head? =
      some (if c ∈ specialsList then '\\' else c) := by
  rw [List.flatMap_cons, escChar_eq]
  by_cases h : c ∈ specialsList
  · rw [if_pos h, if_pos h]; rfl
  · rw [if_neg h, if_neg h]; rfl

theorem escape_append_head_slash (t : Str) (hne : t ≠ []) (r : Str) :
    ((((t.flatMap escChar) ++ r).head? = some '/') ↔ (t.head? = some '/')) := by
  rcases List.exists_cons_of_ne_nil hne with ⟨c, t', rfl⟩
  rw [escape_append_head]
  by_cases h : c ∈ specialsList
  · rw [if_pos h]
    constructor
    · intro hc
      exact absurd (by simpa using hc) (by decide : ¬ ('\\' : Char) = '/')
    · intro hc
      have hcs : c = '/' := by simpa using hc
      rw [hcs] at h
      exact absurd h (by decide)
  · rw [if_neg h]
    simp

theorem anchorPattern_dir (p o : Str) (h : o.getLast? = some '/') :
    anchorPattern p o =
      (if (p ++ str "(|.*)$").head? = some '/'
       then '^' :: (p ++ str "(|.*)$")
       else str "^(|.*/)" ++ (p ++ str "(|.*)$")) := by
  rw [anchorPattern, if_pos h]

theorem anchorPattern_nodir (p o : Str) (h : ¬ (o.getLast? = some '/')) :
    anchorPattern p o =
      (if (p ++ str "(|/.*)$").head? = some '/'
       then '^' :: (p ++ str "(|/.*)$")
       else str "^(|.*/)" ++ (p ++ str "(|/.*)$")) := by
  rw [anchorPattern, if_neg h]

/-- Parsing the escaped chain followed by a trailing group. -/
theorem parseAlt_chain_tail (t : Str) (hplain : plainGlob t = true) (G : Str) (TG : RE)
    (hG : ∀ g, parseSeq (g + 9) G = some (RE.cat TG RE.eps, []))
    (hGsafe : headSafe G.head?)
    (N : Nat) (hN : t.length + 10 ≤ N) :
    parseAlt N (t.flatMap escChar ++ G) = some (litChain t (RE.cat TG RE.eps), []) := by
  have hchain : parseSeq (N - 1) (t.flatMap escChar ++ G) =
      some (litChain t (RE.cat TG RE.eps), []) := by
    rw [show N - 1 = t.length + (N - 4 - t.length) + 3 from by omega]
    rw [parseSeq_chain t hplain G hGsafe (N - 4 - t.length)]
    rw [show (N - 4 - t.length) + 3 = (N - 10 - t.length) + 9 from by omega]
    rw [hG (N - 10 - t.length)]
    rfl
  rw [show N = Nat.succ (N - 1) from by omega, parseAlt]
  simp only [hchain]

/-- Parsing the leading group, the escaped chain and a trailing group. -/
theorem parseAlt_group_chain_tail (t : Str) (hplain : plainGlob t = true) (G : Str) (TG : RE)
    (hG : ∀ g, parseSeq (g + 9) G = some (RE.cat TG RE.eps, []))
    (hGsafe : headSafe G.head?)
    (N : Nat) (hN : t.length + 14 ≤ N) :
    parseAlt N ('(' :: '|' :: '.' :: '*' :: '/' :: ')' :: (t.flatMap escChar ++ G)) =
      some (RE.cat G1 (litChain t (RE.cat TG RE.eps)), []) := by
  have hsafeEG : headSafe (t.flatMap escChar ++ G).head? := chain_headSafe t hplain hGsafe
  have hatomG : parseAtom (N - 3) ('(' :: '|' :: '.' :: '*' :: '/' :: ')' ::
      (t.flatMap escChar ++ G)) = some (G1, t.flatMap escChar ++ G) := by
    rw [show N - 3 = (N - 11) + 8 from by omega]
    exact parseAtom_group1 (N - 11) _
  have hfacG : parseFactor (N - 2) ('(' :: '|' :: '.' :: '*' :: '/' :: ')' ::
      (t.flatMap escChar ++ G)) = some (G1, t.flatMap escChar ++ G) := by
    rw [show N - 2 = Nat.succ (N - 3) from by omega, parseFactor]
    simp only [hatomG]
    generalize hEG : t.flatMap escChar ++ G = z
    rw [hEG] at hsafeEG
    cases z with
    | nil => rfl
    | cons a rest =>
      obtain ⟨h1, h2, h3⟩ := hsafeEG
      split <;> intros <;> simp_all
  have hch : parseSeq (N - 2) (t.flatMap escChar ++ G) =
      some (litChain t (RE.cat TG RE.eps), []) := by
    rw [show N - 2 = t.length + (N - 5 - t.length) + 3 from by omega]
    rw [parseSeq_chain t hplain G hGsafe (N - 5 - t.length)]
    rw [show (N - 5 - t.length) + 3 = (N - 11 - t.length) + 9 from by omega]
    rw [hG (N - 11 - t.length)]
    rfl
  have hseq : parseSeq (N - 1) ('(' :: '|' :: '.' :: '*' :: '/' :: ')' ::
      (t.flatMap escChar ++ G)) =
      some (RE.cat G1 (litChain t (RE.cat TG RE.eps)), []) := by
    rw [show N - 1 = Nat.succ (N - 2) from by omega]
    show (match parseFactor (N - 2) ('(' :: '|' :: '.' :: '*' :: '/' :: ')' ::
            (t.flatMap escChar ++ G)) with
          | none => (none : Option (RE × Str))
          | some (r, rest) =>
            match parseSeq (N - 2) rest with
            | none => none
            | some (r₂, rest₂) => some (RE.cat r r₂, rest₂)) = _
    simp only [hfacG, hch]
  rw [show N = Nat.succ (N - 1) from by omega, parseAlt]
  simp only [hseq]

/-- The compiled matcher of a plain (wildcard-free, backslash-free)
pattern: the anchoring groups around the literal character chain.  This is
the heart of the trailing-`/` and `/`-component claims. -/
theorem compileRegex_plain (t : Str) (hne : t ≠ []) (hplain : plainGlob t = true) :
    compileRegex (translateGlob t) =
      some (wrapHead t (litChain t (RE.cat (tailG t) RE.eps))) := by
  have hEne : t.flatMap escChar ≠ [] := escape_ne_nil hne
  have hlen : t.length ≤ (t.flatMap escChar).length := escape_length_ge t
  rw [translateGlob_plain hplain]
  by_cases hlast : t.getLast? = some '/'
  · rw [anchorPattern_dir _ _ hlast]
    have hGsafe : headSafe (str "(|.*)").head? := ⟨by decide, by decide, by decide⟩
    have hs2ne : str "(|.*)$" ≠ [] := by decide
    have htg : tailG t = G2 := by rw [tailG, if_pos hlast]
    by_cases hhead : t.head? = some '/'
    · rw [if_pos ((escape_append_head_slash t hne _).mpr hhead)]
      rw [wrapHead, if_pos hhead, htg]
      rw [compileRegex]
      rw [if_pos (by rw [getLast?_app hs2ne]; decide)]
      rw [dropLast_app hs2ne, show (str "(|.*)$").dropLast = str "(|.*)" from by decide]
      have hN : t.length + 10 ≤
          4 * ((t.flatMap escChar) ++ str "(|.*)$").length + 16 := by
        rw [List.length_append]; omega
      rw [parseAlt_chain_tail t hplain (str "(|.*)") G2 parseSeq_tail2 hGsafe _ hN]
    · rw [if_neg (fun hc => hhead ((escape_append_head_slash t hne _).mp hc))]
      rw [wrapHead, if_neg hhead, htg]
      rw [show str "^(|.*/)" ++ ((t.flatMap escChar) ++ str "(|.*)$") =
          '^' :: ('(' :: '|' :: '.' :: '*' :: '/' :: ')' ::
            ((t.flatMap escChar) ++ str "(|.*)$")) from rfl]
      rw [compileRegex]
      have hbody : ('(' :: '|' :: '.' :: '*' :: '/' :: ')' ::
          ((t.flatMap escChar) ++ str "(|.*)$")) =
          str "(|.*/)" ++ ((t.flatMap escChar) ++ str "(|.*)$") := rfl
      have hEs : (t.flatMap escChar) ++ str "(|.*)$" ≠ [] :=
        fun hc => hs2ne (List.append_eq_nil.mp hc).2
      rw [if_pos (by rw [hbody, getLast?_app hEs, getLast?_app hs2ne]; decide)]
      rw [hbody, dropLast_app hEs, dropLast_app hs2ne,
        show (str "(|.*)$").dropLast = str "(|.*)" from by decide]
      rw [show str "(|.*/)" ++ ((t.flatMap escChar) ++ str "(|.*)") =
          '(' :: '|' :: '.' :: '*' :: '/' :: ')' ::
            ((t.flatMap escChar) ++ str "(|.*)") from rfl]
      have hN : t.length + 14 ≤
          4 * (str "(|.*/)" ++ ((t.flatMap escChar) ++ str "(|.*)$")).length + 16 := by
        rw [List.length_append, List.length_append]; omega
      rw [parseAlt_group_chain_tail t hplain (str "(|.*)") G2 parseSeq_tail2 hGsafe _ hN]
  · rw [anchorPattern_nodir _ _ hlast]
    have hGsafe : headSafe (str "(|/.*)").head? := ⟨by decide, by decide, by decide⟩
    have hs3ne : str "(|/.*)$" ≠ [] := by decide
    have htg : tailG t = G3 := by rw [tailG, if_neg hlast]
    by_cases hhead : t.head? = some '/'
    · rw [if_pos ((escape_append_head_slash t hne _).mpr hhead)]
      rw [wrapHead, if_pos hhead, htg]
      rw [compileRegex]
      rw [if_pos (by rw [getLast?_app hs3ne]; decide)]
      rw [dropLast_app hs3ne, show (str "(|/.*)$").dropLast = str "(|/.*)" from by decide]
      have hN : t.length + 10 ≤
          4 * ((t.flatMap escChar) ++ str "(|/.*)$").length + 16 := by
        rw [List.length_append]; omega
      rw [parseAlt_chain_tail t hplain (str "(|/.*)") G3 parseSeq_tail3 hGsafe _ hN]
    · rw [if_neg (fun hc => hhead ((escape_append_head_slash t hne _).mp hc))]
      rw [wrapHead, if_neg hhead, htg]
      rw [show str "^(|.*/)" ++ ((t.flatMap escChar) ++ str "(|/.*)$") =
          '^' :: ('(' :: '|' :: '.' :: '*' :: '/' :: ')' ::
            ((t.flatMap escChar) ++ str "(|/.*)$")) from rfl]
      rw [compileRegex]
      have hbody : ('(' :: '|' :: '.' :: '*' :: '/' :: ')' ::
          ((t.flatMap escChar) ++ str "(|/.*)$")) =
          str "(|.*/)" ++ ((t.flatMap escChar) ++ str "(|/.*)$") := rfl
      have hEs : (t.flatMap escChar) ++ str "(|/.*)$" ≠ [] :=
        fun hc => hs3ne (List.append_eq_nil.mp hc).2
      rw [if_pos (by rw [hbody, getLast?_app hEs, getLast?_app hs3ne]; decide)]
      rw [hbody, dropLast_app hEs, dropLast_app hs3ne,
        show (str "(|/.*)$").dropLast = str "(|/.*)" from by decide]
      rw [show str "(|.*/)" ++ ((t.flatMap escChar) ++ str "(|/.*)") =
          '(' :: '|' :: '.' :: '*' :: '/' :: ')' ::
            ((t.flatMap escChar) ++ str "(|/.*)") from rfl]
      have hN : t.length + 14 ≤
          4 * (str "(|.*/)" ++ ((t.flatMap escChar) ++ str "(|/.*)$")).length + 16 := by
        rw [List.length_append, List.length_append]; omega
      rw [parseAlt_group_chain_tail t hplain (str "(|/.*)") G3 parseSeq_tail3 hGsafe _ hN]

theorem litChain_rmatch (t : Str) (k : RE) (s : Str) :
    RE.rmatch (litChain t k) s = true ↔ ∃ v, s = t ++ v ∧ RE.rmatch k v = true := by
  induction t generalizing s with
  | nil => simp [litChain]
  | cons c t' ih =>
    constructor
    · intro h
      rcases RE.rmatch_cat_cls_elim h with ⟨a, s', rfl, ha, hrest⟩
      have hac : a = c := by simpa using ha
      rcases (ih s').mp hrest with ⟨v, rfl, hk⟩
      exact ⟨v, by rw [hac]; rfl, hk⟩
    · rintro ⟨v, rfl, hk⟩
      show RE.rmatch (RE.cat (RE.cls (fun x => x == c)) (litChain t' k)) ((c :: t') ++ v) = true
      rw [show (c :: t') ++ v = [c] ++ (t' ++ v) from by simp]
      exact RE.rmatch_cat_intro (RE.rmatch_cls_single (by simp))
        ((ih (t' ++ v)).mpr ⟨v, rfl, hk⟩)

theorem G2eps_matches (x : Str) (hx : ∀ c ∈ x, ¬ c = '\n') :
    RE.rmatch (RE.cat G2 RE.eps) x = true := by
  have hstar : RE.rmatch (RE.star dotC) x = true :=
    RE.rmatch_star_cls (fun c hc => by simp [dotC]; exact hx c hc)
  have hG2 : RE.rmatch G2 x = true :=
    RE.rmatch_alt_right (by simpa using RE.rmatch_cat_intro hstar RE.rmatch_eps_nil)
  simpa using RE.rmatch_cat_intro hG2 RE.rmatch_eps_nil

/-- When a compiled plain rule matches a path, every character of the rule
text occurs in the path (the rule text is matched literally, contiguously). -/
theorem rmatch_wrapHead_mem {t b : Str}
    (h : RE.rmatch (wrapHead t (litChain t (RE.cat (tailG t) RE.eps))) b = true)
    {c : Char} (hc : c ∈ t) : c ∈ b := by
  rw [wrapHead] at h
  by_cases hh : t.head? = some '/'
  · rw [if_pos hh] at h
    rcases (litChain_rmatch t _ b).mp h with ⟨v, rfl, -⟩
    exact List.mem_append.mpr (Or.inl hc)
  · rw [if_neg hh] at h
    rcases (RE.cat_rmatch_iff _ _ b).mp h with ⟨u, w, rfl, -, hw⟩
    rcases (litChain_rmatch t _ w).mp hw with ⟨v, rfl, -⟩
    exact List.mem_append.mpr (Or.inr (List.mem_append.mpr (Or.inl hc)))

/-- A matched path is at least as long as the rule text. -/
theorem rmatch_wrapHead_length {t b : Str}
    (h : RE.rmatch (wrapHead t (litChain t (RE.cat (tailG t) RE.eps))) b = true) :
    t.length ≤ b.length := by
  rw [wrapHead] at h
  by_cases hh : t.head? = some '/'
  · rw [if_pos hh] at h
    rcases (litChain_rmatch t _ b).mp h with ⟨v, rfl, -⟩
    rw [List.length_append]
    omega
  · rw [if_neg hh] at h
    rcases (RE.cat_rmatch_iff _ _ b).mp h with ⟨u, w, rfl, -, hw⟩
    rcases (litChain_rmatch t _ w).mp hw with ⟨v, rfl, -⟩
    simp only [List.length_append]
    omega

/-- The compiled rule of a trailing-`/` pattern matches everything the
pattern text prefixes (newline-free remainder). -/
theorem rmatch_dir_beneath (t : Str) (hlast : t.getLast? = some '/') (x : Str)
    (hx : ∀ c ∈ x, ¬ c = '\n') :
    RE.rmatch (wrapHead t (litChain t (RE.cat (tailG t) RE.eps))) (t ++ x) = true := by
  have htg : tailG t = G2 := by rw [tailG, if_pos hlast]
  have hin : RE.rmatch (litChain t (RE.cat (tailG t) RE.eps)) (t ++ x) = true :=
    (litChain_rmatch t _ (t ++ x)).mpr ⟨x, rfl, by rw [htg]; exact G2eps_matches x hx⟩
  rw [wrapHead]
  by_cases hh : t.head? = some '/'
  · rw [if_pos hh]; exact hin
  · rw [if_neg hh]
    simpa using RE.rmatch_cat_intro (show RE.rmatch G1 [] = true from rfl) hin

/-- `parsePatternLine` on a plain pattern. -/
theorem parsePatternLine_plain (t : Str) (hne : t ≠ []) (hplain : plainGlob t = true)
    (hhead : ∀ c, t.head? = some c → (c ≠ '#' ∧ c ≠ '!' ∧ isGoSpace c = false))
    (hlast : ∀ c, t.getLast? = some c → isGoSpace c = false) :
    parsePatternLine t =
      some (wrapHead t (litChain t (RE.cat (tailG t) RE.eps)), false) := by
  simp only [parsePatternLine, rulePreprocess_plain t hne hplain hhead hlast,
    compileRegex_plain t hne hplain]

/-- The rule set of a single plain pattern line. -/
theorem compileIgnoreLines_plain (t : Str) (hne : t ≠ []) (hplain : plainGlob t = true)
    (hhead : ∀ c, t.head? = some c → (c ≠ '#' ∧ c ≠ '!' ∧ isGoSpace c = false))
    (hlast : ∀ c, t.getLast? = some c → isGoSpace c = false) :
    compileIgnoreLines [t] =
      [{ pattern := wrapHead t (litChain t (RE.cat (tailG t) RE.eps)), negate := false }] := by
  simp [compileIgnoreLines, parsePatternLine_plain t hne hplain hhead hlast]

theorem matchesPath_nil (p : Str) : matchesPath [] p = false := rfl

/-- Claim C2, counterexample: the pattern `build/` does not match the bare
path `build` — traversal hands the directory path without a trailing
slash, and the compiled regex `^(|.*/)build/(|.*)$` demands the slash. -/
theorem c2_dir_pattern_misses_bare_dir :
    matchesPath (compileIgnoreLines [str "build/"]) (str "build") = false := by decide

/-- Claim C2 (amended): for every plain (wildcard- and backslash-free,
sanely delimited) pattern ending in `/`, the compiled matcher matches
every path of the form `pattern ++ rest` for newline-free `rest` — in
particular every path nested beneath the directory — but it does not
match the bare directory path (the pattern text without its trailing
slash). -/
theorem c2_dir_pattern_matches_beneath_only
    (t : Str) (hne : t ≠ []) (hplain : plainGlob t = true)
    (hhead : ∀ c, t.head? = some c → (c ≠ '#' ∧ c ≠ '!' ∧ isGoSpace c = false))
    (hlast : t.getLast? = some '/') :
    (∀ x : Str, (∀ c ∈ x, ¬ c = '\n') →
        matchesPath (compileIgnoreLines [t]) (t ++ x) = true) ∧
      matchesPath (compileIgnoreLines [t]) t.dropLast = false := by
  have hlast' : ∀ c, t.getLast? = some c → isGoSpace c = false := by
    intro c hc
    rw [hlast] at hc
    have hcs : c = '/' := by simpa using hc.symm
    rw [hcs]
    rfl
  have hrules := compileIgnoreLines_plain t hne hplain hhead hlast'
  constructor
  · intro x hx
    rw [hrules, matchesPath_singleton]
    exact rmatch_dir_beneath t hlast x hx
  · rw [hrules, matchesPath_singleton]
    rw [Bool.eq_false_iff]
    intro h
    have hlen := rmatch_wrapHead_length h
    have hdl : t.dropLast.length = t.length - 1 := List.length_dropLast t
    have htpos : 0 < t.length := List.length_pos.mpr hne
    omega

theorem c2_dir_pattern_matches_beneath_only_witness :
    matchesPath (compileIgnoreLines [str "build/"]) (str "build/" ++ str "keep.txt") = true ∧
      matchesPath (compileIgnoreLines [str "build/"]) (str "build/").dropLast = false :=
  ⟨(c2_dir_pattern_matches_beneath_only (str "build/") (by decide) (by decide)
      (fun c hc => by
        rw [show (str "build/").head? = some 'b' from by decide] at hc
        rw [(Option.some_inj.mp hc).symm]
        decide)
      (by decide)).1 (str "keep.txt") (by decide),
   (c2_dir_pattern_matches_beneath_only (str "build/") (by decide) (by decide)
      (fun c hc => by
        rw [show (str "build/").head? = some 'b' from by decide] at hc
        rw [(Option.some_inj.mp hc).symm]
        decide)
      (by decide)).2⟩

/-- Claim C10: `shouldSkipFile` evaluates the rules against the path made
relative to its own parent directory — the base name.  Hence a plain rule
containing a `/` (a directory component or a leading slash) never changes
the skip decision for a file whose base name is slash-free, while the
base-name pattern `*.txt` does skip `/d/a.txt` that would otherwise be
kept. -/
theorem c10_single_file_rules_see_basename
    (t : Str) (hne : t ≠ []) (hplain : plainGlob t = true)
    (hhead : ∀ c, t.head? = some c → (c ≠ '#' ∧ c ≠ '!' ∧ isGoSpace c = false))
    (hlast : ∀ c, t.getLast? = some c → isGoSpace c = false)
    (hslash : '/' ∈ t)
    (path : Str) (content : List Nat) (maxKB : Int)
    (hbase : '/' ∉ (goRel (dirOf path) path).getD []) :
    shouldSkipFile path content (compileIgnoreLines [t]) maxKB =
        shouldSkipFile path content [] maxKB ∧
      shouldSkipFile (str "/d/a.txt") [104, 105] (compileIgnoreLines [str "*.txt"]) 16 = true ∧
      shouldSkipFile (str "/d/a.txt") [104, 105] [] 16 = false := by
  refine ⟨?_, by decide, by decide⟩
  have hrules := compileIgnoreLines_plain t hne hplain hhead hlast
  have hm : RE.rmatch (wrapHead t (litChain t (RE.cat (tailG t) RE.eps)))
      ((goRel (dirOf path) path).getD []) = false := by
    rw [Bool.eq_false_iff]
    intro h
    exact hbase (rmatch_wrapHead_mem h hslash)
  simp only [shouldSkipFile, hrules, matchesPath_singleton, hm, matchesPath_nil]

theorem c10_single_file_rules_see_basename_witness :
    (shouldSkipFile (str "/d/a.txt") [104, 105]
        (compileIgnoreLines [str "src/main.go"]) 16 =
      shouldSkipFile (str "/d/a.txt") [104, 105] [] 16) ∧
      shouldSkipFile (str "/d/a.txt") [104, 105] (compileIgnoreLines [str "*.txt"]) 16 = true ∧
      shouldSkipFile (str "/d/a.txt") [104, 105] [] 16 = false :=
  c10_single_file_rules_see_basename (str "src/main.go") (by decide) (by decide)
    (fun c hc => by
      rw [show (str "src/main.go").head? = some 's' from by decide] at hc
      rw [(Option.some_inj.mp hc).symm]
      decide)
    (fun c hc => by
      rw [show (str "src/main.go").getLast? = some 'o' from by decide] at hc
      rw [(Option.some_inj.mp hc).symm]
      decide)
    (by decide) (str "/d/a.txt") [104, 105] 16 (by decide)

end AgentExec
